import Mathlib

/-!
# Verification of the Mindalizer chat core (`src/chat.js`)

This file gives a shallow embedding, in Lean 4, of the two core pieces of the
Mindalizer chat widget:

* the reply extractor `extractReply` (chat.js lines 343-360),
* the retrying webhook client `sendMessage` (chat.js lines 288-338), and
* the message formatter `formatMessage` with its helpers `escapeHtml`
  (lines 247-251) and `convertToTable` (lines 256-283),

together with theorems settling the frozen specification claims about them.

JavaScript values decoded from JSON are modelled by the inductive type
`JsValue` (with an extra constructor for the runtime value `undefined`,
which property access on a missing key produces).  JavaScript strings are
modelled by `List Char` at the formatter level (one element per Unicode
scalar) and by `String` at the API surface.
-/

namespace Mindalizer

/-- A JavaScript value as produced by `response.json()`, plus the runtime
value `undefined` that property access on a missing key yields.  Objects are
association lists with unique keys (as produced by `JSON.parse`). -/
inductive JsValue : Type where
  | str (s : String)
  | num (n : Int)
  | bool (b : Bool)
  | null
  | undefined
  | arr (elems : List JsValue)
  | obj (fields : List (String × JsValue))

/-- JavaScript truthiness of a `JsValue`: `""`, `0`, `false`, `null` and
`undefined` are falsy; every other value (including any array or object) is
truthy. -/
def truthy : JsValue → Bool
  | .str s => s ≠ ""
  | .num n => n ≠ 0
  | .bool b => b
  | .null => false
  | .undefined => false
  | .arr _ => true
  | .obj _ => true

/-- Property access `v.k` on a value that is not `null`/`undefined`:
object lookup (missing key gives `undefined`); any primitive or array gives
`undefined` for the keys probed by `extractReply` (none of which is an
exotic property such as `length`). -/
def prop : JsValue → String → JsValue
  | .obj fields, k => ((fields.find? (fun p => p.1 == k)).map (fun p => p.2)).getD .undefined
  | _, _ => .undefined

/-- Optional-chaining access `v?.k`: `null`/`undefined` short-circuit to
`undefined` instead of throwing. -/
def optProp (v : JsValue) (k : String) : JsValue :=
  match v with
  | .null => .undefined
  | .undefined => .undefined
  | _ => prop v k

/-- JavaScript `a || b`, restricted to the way `extractReply` uses it:
returns `a` if truthy, otherwise `b`. -/
def jsOr (a b : JsValue) : JsValue :=
  if truthy a then a else b

/-- `Array.isArray(data) && data[0]?.reply` from chat.js line 357: `false`
for a non-array (the `&&` short-circuits to the left operand), otherwise the
optional-chained `reply` field of the first element (`undefined` for an
empty array, whose `data[0]` is `undefined`). -/
def arrFirstReply : JsValue → JsValue
  | .arr (x :: _) => optProp x "reply"
  | .arr [] => .undefined
  | _ => .bool false

/-- `Array.isArray(data) && data[0]?.json?.reply` from chat.js line 358. -/
def arrFirstJsonReply : JsValue → JsValue
  | .arr (x :: _) => optProp (optProp x "json") "reply"
  | .arr [] => .undefined
  | _ => .bool false

/-- `extractReply` (chat.js lines 343-360).  A raw string is returned as is;
otherwise the candidate fields `reply`, `message`, `text`, `answer`,
`output`, `response`, `data` are probed with `||`, then the two array
fallbacks, then `null`.  On a `null` (or `undefined`) payload the very first
property access `data.reply` throws a `TypeError`, modelled as `.error ()`;
the thrown error is caught by `sendMessage` and treated as a failed
attempt. -/
def extractReply (data : JsValue) : Except Unit JsValue :=
  match data with
  | .str s => .ok (.str s)
  | .null => .error ()
  | .undefined => .error ()
  | d =>
    .ok (jsOr (prop d "reply")
        (jsOr (prop d "message")
        (jsOr (prop d "text")
        (jsOr (prop d "answer")
        (jsOr (prop d "output")
        (jsOr (prop d "response")
        (jsOr (prop d "data")
        (jsOr (arrFirstReply d)
        (jsOr (arrFirstJsonReply d) .null)))))))))

/-- The candidate keys of the probe order, as declared by the spec
(section 6, "Recognized shapes ... probed in this exact order"). -/
def candidateKeys : List String :=
  ["reply", "message", "text", "answer", "output", "response", "data"]

/-- The full ordered candidate list for a non-string payload: the seven
object keys, then the first array element fallbacks. -/
def specCandidates (d : JsValue) : List JsValue :=
  candidateKeys.map (prop d) ++ [arrFirstReply d, arrFirstJsonReply d]

/-- Modelled from the spec's words (section 6): the extractor probes the
shapes in the declared order and "first match wins", a match being a
candidate that yields a usable (truthy) value; a raw string is returned as
is, and if nothing matches the result is `null`.  Used as the reference
side of the refinement theorem for claim C3. -/
def extractReplySpec (data : JsValue) : JsValue :=
  match data with
  | .str s => .str s
  | d => ((specCandidates d).find? truthy).getD .null

/-- Folding `jsOr` over a candidate list with final `null` returns the first
truthy candidate, i.e. agrees with `find?`. -/
theorem jsOr_foldr_eq_find (l : List JsValue) :
    l.foldr jsOr .null = (l.find? truthy).getD .null := by
  induction l with
  | nil => rfl
  | cons a l ih =>
    simp only [List.foldr_cons, List.find?_cons, jsOr]
    cases h : truthy a with
    | false => simpa [h] using ih
    | true => simp [h]

theorem extractReply_eq_fold (d : JsValue) (h1 : d ≠ .null) (h2 : d ≠ .undefined)
    (h3 : ∀ s, d ≠ .str s) :
    extractReply d = .ok ((specCandidates d).foldr jsOr .null) := by
  cases d with
  | str s => exact absurd rfl (h3 s)
  | null => exact absurd rfl h1
  | undefined => exact absurd rfl h2
  | num n => rfl
  | bool b => rfl
  | arr a => rfl
  | obj f => rfl

/-- C3: the reply extractor probes the payload shapes in exactly the
declared order — raw string; object keys `reply`, `message`, `text`,
`answer`, `output`, `response`, `data`; first array element's `reply`;
first array element's nested `json.reply` — and returns the first match
(the first truthy candidate, `null` if none): for every payload that does
not make the very first property access throw (`null`/`undefined`),
`extractReply` agrees with the spec-modelled ordered probe
`extractReplySpec`; in particular `{ message: "x", text: "y" }` yields
`"x"`, not `"y"`. -/
theorem extractReply_probe_order :
    (∀ data : JsValue, data ≠ .null → data ≠ .undefined →
      extractReply data = .ok (extractReplySpec data)) ∧
    extractReply (.obj [("message", .str "x"), ("text", .str "y")]) =
      .ok (.str "x") := by
  constructor
  · intro data h1 h2
    cases data with
    | str s => rfl
    | null => exact absurd rfl h1
    | undefined => exact absurd rfl h2
    | num n =>
      have h3 : ∀ s, JsValue.num n ≠ JsValue.str s := fun _ h => JsValue.noConfusion h
      rw [extractReply_eq_fold _ h1 h2 h3, jsOr_foldr_eq_find]; rfl
    | bool b =>
      have h3 : ∀ s, JsValue.bool b ≠ JsValue.str s := fun _ h => JsValue.noConfusion h
      rw [extractReply_eq_fold _ h1 h2 h3, jsOr_foldr_eq_find]; rfl
    | arr a =>
      have h3 : ∀ s, JsValue.arr a ≠ JsValue.str s := fun _ h => JsValue.noConfusion h
      rw [extractReply_eq_fold _ h1 h2 h3, jsOr_foldr_eq_find]; rfl
    | obj f =>
      have h3 : ∀ s, JsValue.obj f ≠ JsValue.str s := fun _ h => JsValue.noConfusion h
      rw [extractReply_eq_fold _ h1 h2 h3, jsOr_foldr_eq_find]; rfl
  · rfl

/-- Witness for C3: the probe-order theorem applied at the concrete payload
`{ message: "x", text: "y" }`. -/
theorem extractReply_probe_order_witness :
    extractReply (.obj [("message", .str "x"), ("text", .str "y")]) =
      .ok (extractReplySpec (.obj [("message", .str "x"), ("text", .str "y")])) :=
  extractReply_probe_order.1 _ nofun nofun

/-- C9: a candidate key holding a falsy value (empty string, `0`, `false`,
`null`) is skipped in favour of the next candidate: if the first `i` keys of
the probe order all yield falsy values and the `i`-th yields a truthy value,
that later value is returned. -/
theorem extractReply_skips_falsy :
    ∀ (d : JsValue) (i : Nat), i < candidateKeys.length →
      (∀ s, d ≠ .str s) → d ≠ .null → d ≠ .undefined →
      (∀ k ∈ candidateKeys.take i, truthy (prop d k) = false) →
      truthy (prop d (candidateKeys.getD i "")) = true →
      extractReply d = .ok (prop d (candidateKeys.getD i "")) := by
  intro d i hi hs hn hu hf ht
  rw [extractReply_eq_fold d hn hu hs]
  have hlen : candidateKeys.length = 7 := rfl
  rw [hlen] at hi
  simp only [candidateKeys, List.mem_cons] at hf
  interval_cases i <;>
    simp_all [specCandidates, candidateKeys, jsOr, List.take, List.foldr]

/-- Witness for C9: the falsy-skip theorem applied at the concrete payload
`{ reply: "", message: "y" }`; the earlier candidate `reply` is present but
falsy, so the later `message` value `"y"` is returned. -/
theorem extractReply_skips_falsy_witness :
    extractReply (.obj [("reply", .str ""), ("message", .str "y")]) =
      .ok (prop (.obj [("reply", .str ""), ("message", .str "y")])
            (candidateKeys.getD 1 "")) :=
  extractReply_skips_falsy _ 1 (by decide) nofun nofun nofun
    (by intro k hk; simp [candidateKeys] at hk; subst hk; rfl) rfl

/-! ## The retrying webhook client (`sendMessage`, chat.js lines 288-338) -/

/-- Outcome of one `fetch` exchange inside `sendMessage`:
* `transportError` — the `fetch` promise rejects (network failure);
* `httpError status` — a response with `response.ok` false (non-2xx status),
  which `sendMessage` turns into a thrown `Error` (line 305);
* `parseError` — `response.json()` rejects (undecodable body);
* `ok data` — a success status whose body decodes to `data`. -/
inductive AttemptOutcome : Type where
  | transportError
  | httpError (status : Nat)
  | parseError
  | ok (data : JsValue)

/-- Result of a whole `sendMessage` call chain: either a bot reply was
appended to the chat, or the error toast was shown after exhausting all
retries. -/
inductive SendResult : Type where
  | delivered (reply : JsValue)
  | errorShown

/-- What one attempt yields: `some reply` iff the attempt reaches
`appendMessage(reply, 'bot')` — a success status, a decodable body, an
extraction that does not throw, and a truthy extracted reply (line 313).
Every other outcome (transport error, non-ok status, parse error, a
`TypeError` thrown inside `extractReply`, or a falsy/empty extracted reply,
line 316) ends in the `catch` block. -/
def attemptReply : AttemptOutcome → Option JsValue
  | .ok data =>
    match extractReply data with
    | .ok reply => if truthy reply then some reply else none
    | .error _ => none
  | _ => none

/-- The retry loop of `sendMessage`, recursing on
`remaining = maxRetries - retryCount` so that the recursion is structural
(`retryCount < CONFIG.maxRetries` at line 323 is exactly `remaining ≠ 0`).
`attempt k` is the outcome of the exchange performed by the call with
`retryCount = k`.  Returns the number of attempts performed, the list of
`delay` durations awaited (line 325: `CONFIG.retryDelay * (retryCount + 1)`
before the next call), and the final result. -/
def sendMessageAux (retryDelay : Nat) (attempt : Nat → AttemptOutcome) :
    Nat → Nat → Nat × List Nat × SendResult
  | remaining, retryCount =>
    match attemptReply (attempt retryCount) with
    | some reply => (1, [], .delivered reply)
    | none =>
      match remaining with
      | 0 => (1, [], .errorShown)
      | r + 1 =>
        let rest := sendMessageAux retryDelay attempt r (retryCount + 1)
        (rest.1 + 1, retryDelay * (retryCount + 1) :: rest.2.1, rest.2.2)

/-- `sendMessage(message, retryCount)` with configuration
`{ maxRetries, retryDelay }`: runs the attempt at `retryCount`, and on
failure retries while `retryCount < maxRetries`, waiting
`retryDelay * (retryCount + 1)` before each retry. -/
def sendMessageRun (maxRetries retryDelay : Nat) (attempt : Nat → AttemptOutcome)
    (retryCount : Nat) : Nat × List Nat × SendResult :=
  sendMessageAux retryDelay attempt (maxRetries - retryCount) retryCount

theorem sendMessageAux_all_fail (retryDelay : Nat) (attempt : Nat → AttemptOutcome)
    (hfail : ∀ k, attemptReply (attempt k) = none) :
    ∀ (remaining retryCount : Nat),
      sendMessageAux retryDelay attempt remaining retryCount =
        (remaining + 1,
         (List.range' (retryCount + 1) remaining).map (fun k => retryDelay * k),
         .errorShown) := by
  intro remaining
  induction remaining with
  | zero => intro rc; simp [sendMessageAux, hfail rc]
  | succ r ih =>
    intro rc
    simp only [sendMessageAux, hfail rc, ih (rc + 1)]
    rw [List.range'_succ, List.map_cons]

/-- C2: for every configured `maxRetries` and `retryDelay` (the baseDelay),
if every attempt fails then the client performs exactly `maxRetries + 1`
attempts, waits `retryDelay * 1, retryDelay * 2, ..., retryDelay * maxRetries`
before attempts 2 through `maxRetries + 1` (linear backoff), and ends by
surfacing a single error to the caller (the error toast of line 330). -/
theorem sendMessage_retry_backoff (maxRetries retryDelay : Nat)
    (attempt : Nat → AttemptOutcome)
    (hfail : ∀ k, attemptReply (attempt k) = none) :
    sendMessageRun maxRetries retryDelay attempt 0 =
      (maxRetries + 1,
       (List.range' 1 maxRetries).map (fun k => retryDelay * k),
       .errorShown) := by
  rw [sendMessageRun, Nat.sub_zero, sendMessageAux_all_fail retryDelay attempt hfail]

/-- Witness for C2 at the spec's concrete instance: `maxRetries = 3`,
`retryDelay = 1000`, transport always failing — exactly 4 attempts, waits
1000, 2000, 3000, then the error is surfaced. -/
theorem sendMessage_retry_backoff_witness :
    sendMessageRun 3 1000 (fun _ => AttemptOutcome.transportError) 0 =
      (4, [1000, 2000, 3000], .errorShown) := by
  have h := sendMessage_retry_backoff 3 1000 (fun _ => AttemptOutcome.transportError)
    (fun _ => rfl)
  simpa using h

/-- C5: both failure modes of an attempt — a non-success HTTP status and a
successfully decoded response whose extraction yields no truthy value (for
example the payload `{}`) — are classified as failed attempts exactly like a
transport failure, and any failed attempt with `retryCount < maxRetries`
triggers the same retry path: one wait of `retryDelay * (retryCount + 1)`
followed by the run at `retryCount + 1`. -/
theorem failed_attempt_retries_uniformly :
    (∀ status, attemptReply (.httpError status) = none) ∧
    attemptReply (.ok (.obj [])) = none ∧
    attemptReply .transportError = none ∧
    ∀ (maxRetries retryDelay : Nat) (attempt : Nat → AttemptOutcome)
      (retryCount : Nat),
      retryCount < maxRetries →
      attemptReply (attempt retryCount) = none →
      sendMessageRun maxRetries retryDelay attempt retryCount =
        ((sendMessageRun maxRetries retryDelay attempt (retryCount + 1)).1 + 1,
         retryDelay * (retryCount + 1) ::
           (sendMessageRun maxRetries retryDelay attempt (retryCount + 1)).2.1,
         (sendMessageRun maxRetries retryDelay attempt (retryCount + 1)).2.2) := by
  refine ⟨fun _ => rfl, rfl, rfl, ?_⟩
  intro mR rD attempt rc hlt hfail
  have hrem : mR - rc = (mR - (rc + 1)) + 1 := by omega
  rw [sendMessageRun, hrem]
  simp [sendMessageAux, hfail, sendMessageRun]

/-- Witness for C5: the uniform-retry theorem applied at the empty-object
payload `{}` (the empty-reply failure mode) with `maxRetries = 3`,
`retryDelay = 1000`, `retryCount = 0`. -/
theorem failed_attempt_retries_uniformly_witness :
    sendMessageRun 3 1000 (fun _ => AttemptOutcome.ok (JsValue.obj [])) 0 =
      ((sendMessageRun 3 1000 (fun _ => AttemptOutcome.ok (JsValue.obj [])) 1).1 + 1,
       1000 * (0 + 1) ::
         (sendMessageRun 3 1000 (fun _ => AttemptOutcome.ok (JsValue.obj [])) 1).2.1,
       (sendMessageRun 3 1000 (fun _ => AttemptOutcome.ok (JsValue.obj [])) 1).2.2) :=
  failed_attempt_retries_uniformly.2.2.2 3 1000 _ 0 (by omega) rfl

/-! ## The message formatter (`formatMessage`, chat.js lines 219-283)

JavaScript strings are modelled as `List Char` (one element per Unicode
scalar value).  Each regular-expression `replace` of the source is compiled
to an explicit left-to-right scanner with the exact semantics of the JS
regex engine for that pattern (leftmost match, greedy/lazy quantifiers,
`.` not matching line terminators, `\s` being the ECMAScript whitespace
class).  Scanners that advance past a variable-length match take an
explicit fuel argument, instantiated with the input length (each step
consumes at least one character), so that every definition is structurally
recursive and kernel-reducible. -/

/-- ECMAScript line terminators, which `.` does not match in a regex
without the `s` flag. -/
def lineTerm (c : Char) : Bool :=
  c = '\n' || c = '\r' || c = '\u2028' || c = '\u2029'

/-- The ECMAScript whitespace class `\s` (WhiteSpace ∪ LineTerminator),
also the set stripped by `String.prototype.trim`. -/
def jsWhitespace (c : Char) : Bool :=
  c = ' ' || c = '\t' || c = '\n' || c = '\u000B' || c = '\u000C' || c = '\r' ||
  c = '\u00A0' || c = '\u1680' || (0x2000 ≤ c.toNat && c.toNat ≤ 0x200A) ||
  c = '\u2028' || c = '\u2029' || c = '\u202F' || c = '\u205F' ||
  c = '\u3000' || c = '\uFEFF'

/-- `escapeHtml` (chat.js lines 247-251) assigns the text to a detached
`div`'s `textContent` and reads back `innerHTML`; the HTML fragment
serialization algorithm escapes exactly `&`, `<`, `>` and U+00A0 in text
nodes, character by character. -/
def escapeChar (c : Char) : List Char :=
  if c = '&' then ['&', 'a', 'm', 'p', ';']
  else if c = '<' then ['&', 'l', 't', ';']
  else if c = '>' then ['&', 'g', 't', ';']
  else if c = '\u00A0' then ['&', 'n', 'b', 's', 'p', ';']
  else [c]

/-- `escapeHtml` over a whole string. -/
def escapeHtmlL (l : List Char) : List Char :=
  (l.map escapeChar).flatten

/-- JavaScript `split('\n\n')`: leftmost, non-overlapping occurrences of the
two-character separator; splitting the empty string gives `[""]`. -/
def splitOnNN : List Char → List (List Char)
  | [] => [[]]
  | '\n' :: '\n' :: rest => [] :: splitOnNN rest
  | c :: rest =>
    match splitOnNN rest with
    | [] => [[c]]
    | p :: ps => (c :: p) :: ps

/-- `para.replace(/\n/g, '<br>')` (chat.js line 226). -/
def replaceNewline : List Char → List Char
  | [] => []
  | '\n' :: rest => '<' :: 'b' :: 'r' :: '>' :: replaceNewline rest
  | c :: rest => c :: replaceNewline rest

/-- One paragraph: `` `<p>${para.replace(/\n/g, '<br>')}</p>` ``. -/
def wrapParagraph (p : List Char) : List Char :=
  ['<', 'p', '>'] ++ replaceNewline p ++ ['<', '/', 'p', '>']

/-- The paragraph stage (chat.js lines 224-227): split on `"\n\n"`, wrap
each piece in `<p>…</p>` with single newlines turned into `<br>`, join. -/
def paragraphStage (l : List Char) : List Char :=
  ((splitOnNN l).map wrapParagraph).flatten

/-- The character class `[-â€¢]` of chat.js line 230.  The source file holds
the UTF-8 bytes of U+00E2, U+20AC, U+00A2 — the bullet sign `•` (U+2022)
once mis-decoded as Windows-1252 — so the class is a literal dash plus the
three mojibake characters, not the bullet sign. -/
def bulletClass (c : Char) : Bool :=
  c = '-' || c = 'â' || c = '€' || c = '¢'

/-- The lazy tail `(.*?)<\/p>` of the bullet regex: the earliest following
`</p>`, reachable without crossing a line terminator (which `.` cannot
match); returns the captured content and the text after the `</p>`. -/
def findParaClose : List Char → Option (List Char × List Char)
  | '<' :: '/' :: 'p' :: '>' :: rest => some ([], rest)
  | c :: rest =>
    if lineTerm c then none
    else
      match findParaClose rest with
      | some (content, after) => some (c :: content, after)
      | none => none
  | [] => none

/-- A match of `/<p>[-â€¢]\s*(.*?)<\/p>/` at the head of the list: literal
`<p>`, one class character, the maximal `\s*` run, then the lazy content up
to the nearest `</p>`.  (Backtracking into a shorter `\s*` run can never
turn a failure into a success: the freed characters are whitespace, so they
contain no `<` to start `</p>`, and any line terminator among them blocks
`.*?` just the same.) -/
def tryBullet : List Char → Option (List Char × List Char)
  | '<' :: 'p' :: '>' :: c :: rest =>
    if bulletClass c then findParaClose (rest.dropWhile (fun x => jsWhitespace x))
    else none
  | _ => none

/-- Global replace `formatted.replace(/<p>[-â€¢]\s*(.*?)<\/p>/g, '<li>$1</li>')`
(chat.js line 230), fuelled scanner. -/
def bulletReplaceGo : Nat → List Char → List Char
  | 0, l => l
  | _ + 1, [] => []
  | fuel + 1, c :: rest =>
    match tryBullet (c :: rest) with
    | some (content, after) =>
      ['<', 'l', 'i', '>'] ++ content ++ ['<', '/', 'l', 'i', '>'] ++
        bulletReplaceGo fuel after
    | none => c :: bulletReplaceGo fuel rest

def bulletReplace (l : List Char) : List Char :=
  bulletReplaceGo l.length l

/-- For the greedy `(<li>.*<\/li>)+`: splits the list at the end of the last
`</li>` reachable without crossing a line terminator — `(span, after)` with
`span` ending in `</li>` — or `none` if no `</li>` occurs before a line
terminator or the end. -/
def splitAtLastLiClose : List Char → Option (List Char × List Char)
  | '<' :: '/' :: 'l' :: 'i' :: '>' :: rest =>
    (match splitAtLastLiClose rest with
     | some (a, b) => some ('<' :: '/' :: 'l' :: 'i' :: '>' :: a, b)
     | none => some (['<', '/', 'l', 'i', '>'], rest))
  | c :: rest =>
    if lineTerm c then none
    else
      match splitAtLastLiClose rest with
      | some (a, b) => some (c :: a, b)
      | none => none
  | [] => none

/-- Global replace `formatted.replace(/(<li>.*<\/li>)+/g, '<ul>$&</ul>')`
(chat.js line 231).  A match starts at a literal `<li>`; the greedy `.*` of
the first repetition already reaches the last `</li>` on the line, so every
match extends from the first `<li>` to the last line-local `</li>` and is
wrapped in `<ul>…</ul>` (`$&` is the match itself). -/
def ulWrapGo : Nat → List Char → List Char
  | 0, l => l
  | _ + 1, [] => []
  | fuel + 1, '<' :: 'l' :: 'i' :: '>' :: rest =>
    (match splitAtLastLiClose ('<' :: 'l' :: 'i' :: '>' :: rest) with
     | some (span, after) =>
       ['<', 'u', 'l', '>'] ++ span ++ ['<', '/', 'u', 'l', '>'] ++ ulWrapGo fuel after
     | none => '<' :: ulWrapGo fuel ('l' :: 'i' :: '>' :: rest))
  | fuel + 1, c :: rest => c :: ulWrapGo fuel rest

def ulWrap (l : List Char) : List Char :=
  ulWrapGo l.length l

/-- The lazy tail `(.*?)\*\*` of the bold regex: earliest following `**`
with no intervening line terminator. -/
def findBoldClose : List Char → Option (List Char × List Char)
  | '*' :: '*' :: rest => some ([], rest)
  | c :: rest =>
    if lineTerm c then none
    else
      match findBoldClose rest with
      | some (content, after) => some (c :: content, after)
      | none => none
  | [] => none

/-- Global replace `formatted.replace(/\*\*(.*?)\*\*/g, '<strong>$1</strong>')`
(chat.js line 234). -/
def boldReplaceGo : Nat → List Char → List Char
  | 0, l => l
  | _ + 1, [] => []
  | fuel + 1, '*' :: '*' :: rest =>
    (match findBoldClose rest with
     | some (content, after) =>
       ['<', 's', 't', 'r', 'o', 'n', 'g', '>'] ++ content ++
         ['<', '/', 's', 't', 'r', 'o', 'n', 'g', '>'] ++ boldReplaceGo fuel after
     | none => '*' :: boldReplaceGo fuel ('*' :: rest))
  | fuel + 1, c :: rest => c :: boldReplaceGo fuel rest

def boldReplace (l : List Char) : List Char :=
  boldReplaceGo l.length l

/-! ### Table conversion (`convertToTable`, chat.js lines 256-283) -/

/-- JavaScript `split('<br>')` on the formatted text (chat.js line 257). -/
def splitOnBr : List Char → List (List Char)
  | [] => [[]]
  | '<' :: 'b' :: 'r' :: '>' :: rest => [] :: splitOnBr rest
  | c :: rest =>
    match splitOnBr rest with
    | [] => [[c]]
    | p :: ps => (c :: p) :: ps

/-- `String.prototype.trim` (strips `jsWhitespace` from both ends). -/
def trimJs (l : List Char) : List Char :=
  ((l.dropWhile jsWhitespace).reverse.dropWhile jsWhitespace).reverse

/-- The separator-line regex `/^\|[\s-|]+\|$/` (chat.js line 265): a leading
pipe, at least one character from `\s`, `-`, `|`, and a trailing pipe. -/
def sepClass (c : Char) : Bool :=
  jsWhitespace c || c = '-' || c = '|'

def isSepLine : List Char → Bool
  | '|' :: rest =>
    decide (2 ≤ rest.length) && rest.dropLast.all sepClass &&
      rest.getLast? == some '|'
  | _ => false

/-- JavaScript `split('|')` of one candidate line (chat.js line 267). -/
def splitOnPipe : List Char → List (List Char)
  | [] => [[]]
  | '|' :: rest => [] :: splitOnPipe rest
  | c :: rest =>
    match splitOnPipe rest with
    | [] => [[c]]
    | p :: ps => (c :: p) :: ps

/-- The non-empty (after trimming) pipe-delimited segments of a line:
`line.split('|').filter(cell => cell.trim())`. -/
def lineCells (line : List Char) : List (List Char) :=
  (splitOnPipe line).filter (fun cell => !(trimJs cell).isEmpty)

/-- One rendered row (chat.js lines 263-277): separator lines produce
nothing, the row at index 0 uses `th`, later rows use `td`, rows with no
cells are skipped, and each cell is trimmed. -/
def renderRow (isHeader : Bool) (line : List Char) : List Char :=
  if isSepLine line then []
  else
    let cells := lineCells line
    if cells.isEmpty then []
    else
      ['<', 't', 'r', '>'] ++
        (cells.map (fun cell =>
          if isHeader then ['<', 't', 'h', '>'] ++ trimJs cell ++ ['<', '/', 't', 'h', '>']
          else ['<', 't', 'd', '>'] ++ trimJs cell ++ ['<', '/', 't', 'd', '>'])).flatten ++
      ['<', '/', 't', 'r', '>']

/-- The accumulated `tableHtml` string built from the pipe-containing
lines. -/
def tableHtmlOf (lines : List (List Char)) : List Char :=
  ['<', 't', 'a', 'b', 'l', 'e', '>'] ++
    (lines.enum.map (fun p => renderRow (p.1 == 0) p.2)).flatten ++
  ['<', '/', 't', 'a', 'b', 'l', 'e', '>']

/-- One iteration `\|[^<]+` of the substitution regex of chat.js line 282:
a literal pipe followed by the maximal non-empty run of characters other
than `<`. -/
def parsePipeRun (l : List Char) : Option (List Char × List Char) :=
  match l with
  | '|' :: rest =>
    let run := rest.takeWhile (fun c => c ≠ '<')
    if run.isEmpty then none
    else some ('|' :: run, rest.dropWhile (fun c => c ≠ '<'))
  | _ => none

/-- Result of matching `(\|[^<]+<br>)*(\|[^<]+)(<\/p>)?` (the part of the
substitution pattern after its first mandatory `\|[^<]+<br>` repetition):
the matched text, the capture of the last completed `(\|[^<]+<br>)`
repetition if any repetition happened at this depth (`none` when the first
pipe-run already served as the `(\|[^<]+)` group), the `(\|[^<]+)` capture,
the `(<\/p>)?` capture (empty when it did not participate), and the text
after the match. -/
structure PipeTailMatch where
  matched : List Char
  g2last : Option (List Char)
  g3 : List Char
  g4 : List Char
  after : List Char

/-- Greedy matching of `(\|[^<]+<br>)*(\|[^<]+)(<\/p>)?`: each pipe-run
followed by `<br>` tries to continue as a further repetition, and only if
the continuation cannot supply the mandatory `(\|[^<]+)` does backtracking
re-classify the current run as that final group (leaving its `<br>`
unconsumed); a run followed by `</p>` consumes it as the optional fourth
group.  Fuelled; each recursion step consumes at least five characters. -/
def pipeTail : Nat → List Char → Option PipeTailMatch
  | 0, _ => none
  | fuel + 1, l =>
    match parsePipeRun l with
    | none => none
    | some (seg, rest) =>
      match rest with
      | '<' :: 'b' :: 'r' :: '>' :: rest2 =>
        (match pipeTail fuel rest2 with
         | some t =>
           some ⟨seg ++ '<' :: 'b' :: 'r' :: '>' :: t.matched,
                 some (t.g2last.getD (seg ++ ['<', 'b', 'r', '>'])),
                 t.g3, t.g4, t.after⟩
         | none => some ⟨seg, none, seg, [], rest⟩)
      | '<' :: '/' :: 'p' :: '>' :: rest2 =>
        some ⟨seg ++ ['<', '/', 'p', '>'], none, seg, ['<', '/', 'p', '>'], rest2⟩
      | _ => some ⟨seg, none, seg, [], rest⟩

/-- A full match of `/(<p>)?(\|[^<]+<br>)+(\|[^<]+)(<\/p>)?/` at the head of
the list, with all four group captures. -/
structure TableMatch where
  matched : List Char
  g1 : List Char
  g2 : List Char
  g3 : List Char
  g4 : List Char
  after : List Char

/-- The pipe part `(\|[^<]+<br>)+(\|[^<]+)(<\/p>)?`: the first repetition is
mandatory and must be followed by `<br>` plus a successful tail. -/
def pipesMatch (l : List Char) : Option TableMatch :=
  match parsePipeRun l with
  | none => none
  | some (seg, rest) =>
    match rest with
    | '<' :: 'b' :: 'r' :: '>' :: rest2 =>
      (match pipeTail (rest2.length + 1) rest2 with
       | some t =>
         some ⟨seg ++ '<' :: 'b' :: 'r' :: '>' :: t.matched,
               [],
               t.g2last.getD (seg ++ ['<', 'b', 'r', '>']),
               t.g3, t.g4, t.after⟩
       | none => none)
    | _ => none

/-- A match attempt of the whole substitution pattern at the head of the
list: the optional `(<p>)?` participates when `<p>` is present and the pipe
part follows (when the pipe part fails after `<p>`, re-trying the position
without the group cannot help, since `\|` cannot match `<`). -/
def tableMatchAt (l : List Char) : Option TableMatch :=
  match l with
  | '<' :: 'p' :: '>' :: rest =>
    (match pipesMatch rest with
     | some t => some ⟨'<' :: 'p' :: '>' :: t.matched, ['<', 'p', '>'],
                       t.g2, t.g3, t.g4, t.after⟩
     | none => none)
  | _ => pipesMatch l

/-- ECMAScript `GetSubstitution` applied to the replacement string (the
built `tableHtml`), which is inserted verbatim except for `$`-patterns:
`$$`, `$&` (the match), a backquoted-dollar (text before the match in the
whole subject), a quoted-dollar (text after the match), and `$1`-`$4` (the
pattern has four groups, so every two-digit reference falls back to its
first digit); any other `$` is literal. -/
def applyRepl (m pre post g1 g2 g3 g4 : List Char) : List Char → List Char
  | [] => []
  | '$' :: '$' :: rest => '$' :: applyRepl m pre post g1 g2 g3 g4 rest
  | '$' :: '&' :: rest => m ++ applyRepl m pre post g1 g2 g3 g4 rest
  | '$' :: '1' :: rest => g1 ++ applyRepl m pre post g1 g2 g3 g4 rest
  | '$' :: '2' :: rest => g2 ++ applyRepl m pre post g1 g2 g3 g4 rest
  | '$' :: '3' :: rest => g3 ++ applyRepl m pre post g1 g2 g3 g4 rest
  | '$' :: '4' :: rest => g4 ++ applyRepl m pre post g1 g2 g3 g4 rest
  | '$' :: c :: rest =>
    if c = Char.ofNat 96 then pre ++ applyRepl m pre post g1 g2 g3 g4 rest
    else if c = Char.ofNat 39 then post ++ applyRepl m pre post g1 g2 g3 g4 rest
    else '$' :: applyRepl m pre post g1 g2 g3 g4 (c :: rest)
  | c :: rest => c :: applyRepl m pre post g1 g2 g3 g4 rest

/-- The global replace `text.replace(/(<p>)?(\|[^<]+<br>)+(\|[^<]+)(<\/p>)?/g,
tableHtml)` of chat.js line 282: left-to-right scan, each match replaced by
the substituted replacement string; `pre` accumulates the part of the
original subject before the current position (needed by the
backquoted-dollar pattern). -/
def tableReplaceGo (repl : List Char) : Nat → List Char → List Char → List Char
  | 0, _, cur => cur
  | _ + 1, _, [] => []
  | fuel + 1, pre, c :: rest =>
    match tableMatchAt (c :: rest) with
    | some t =>
      applyRepl t.matched pre t.after t.g1 t.g2 t.g3 t.g4 repl ++
        tableReplaceGo repl fuel (pre ++ t.matched) t.after
    | none => c :: tableReplaceGo repl fuel (pre ++ [c]) rest

/-- `convertToTable` (chat.js lines 256-283): take the `<br>`-separated
lines containing a pipe; with fewer than two, return the text unchanged;
otherwise build `tableHtml` from those lines and substitute it for every
match of the pipe-sequence pattern in the text. -/
def convertToTable (text : List Char) : List Char :=
  let lines := (splitOnBr text).filter (fun line => line.contains '|')
  if lines.length < 2 then text
  else tableReplaceGo (tableHtmlOf lines) text.length [] text

/-- `formatted.includes('<br>')`. -/
def containsBr : List Char → Bool
  | '<' :: 'b' :: 'r' :: '>' :: _ => true
  | _ :: rest => containsBr rest
  | [] => false

/-- `formatMessage` (chat.js lines 219-242) at the character-list level:
escape, paragraphs, bullet items, list wrapping, bold spans, then table
conversion when the text contains both a pipe and a `<br>`. -/
def formatCore (content : List Char) : List Char :=
  let f1 := escapeHtmlL content
  let f2 := paragraphStage f1
  let f3 := bulletReplace f2
  let f4 := ulWrap f3
  let f5 := boldReplace f4
  if f5.contains '|' && containsBr f5 then convertToTable f5 else f5

/-- `formatMessage` on JavaScript strings. -/
def formatMessage (content : String) : String :=
  String.mk (formatCore content.data)

/-! ### Scanner infrastructure: each fuelled scanner consumes at least one
character per step, so fuel equal to the input length always suffices; the
step lemmas below let later proofs forget the fuel entirely. -/

theorem findParaClose_length :
    ∀ l content after, findParaClose l = some (content, after) →
      after.length < l.length := by
  intro l
  induction l using findParaClose.induct with
  | case1 rest =>
    intro content after h
    rw [findParaClose.eq_1] at h
    simp only [Option.some.injEq, Prod.mk.injEq] at h
    obtain ⟨-, rfl⟩ := h
    simp only [List.length_cons]
    omega
  | case2 c rest hne hlt =>
    intro content after h
    rw [findParaClose.eq_2 c rest hne, if_pos hlt] at h
    exact absurd h (by simp)
  | case3 c rest hne hnlt content0 after0 hrec ih =>
    intro content after h
    rw [findParaClose.eq_2 c rest hne, if_neg hnlt, hrec] at h
    simp only [Option.some.injEq, Prod.mk.injEq] at h
    obtain ⟨-, rfl⟩ := h
    have h2 := ih _ _ hrec
    simp only [List.length_cons]
    omega
  | case4 c rest hne hnlt hrec ih =>
    intro content after h
    rw [findParaClose.eq_2 c rest hne, if_neg hnlt, hrec] at h
    exact absurd h (by simp)
  | case5 =>
    intro content after h
    exact absurd h (by simp [findParaClose])

theorem dropWhile_length_le (p : Char → Bool) (l : List Char) :
    (l.dropWhile p).length ≤ l.length := by
  have h := congrArg List.length (@List.takeWhile_append_dropWhile _ p l)
  rw [List.length_append] at h
  omega

theorem tryBullet_length (l content after : List Char)
    (h : tryBullet l = some (content, after)) : after.length < l.length := by
  rw [tryBullet.eq_def] at h
  split at h
  · rename_i c rest
    split at h
    · have h1 := findParaClose_length _ _ _ h
      have h2 : (rest.dropWhile (fun x => jsWhitespace x)).length ≤ rest.length :=
        dropWhile_length_le _ _
      simp only [List.length_cons]
      omega
    · exact absurd h (by simp)
  · exact absurd h (by simp)

theorem bulletReplaceGo_eq_of_le :
    ∀ fuel l, l.length ≤ fuel → bulletReplaceGo fuel l = bulletReplace l := by
  intro fuel
  induction fuel using Nat.strong_induction_on with
  | _ fuel ih =>
    match fuel with
    | 0 =>
      intro l hl
      have : l = [] := List.eq_nil_of_length_eq_zero (Nat.le_zero.mp hl)
      subst this
      rfl
    | f + 1 =>
      intro l hl
      match l with
      | [] => rfl
      | c :: rest =>
        simp only [List.length_cons] at hl
        cases htb : tryBullet (c :: rest) with
        | some ca =>
          obtain ⟨content, after⟩ := ca
          have hlen := tryBullet_length _ _ _ htb
          simp only [List.length_cons] at hlen
          simp only [bulletReplace, List.length_cons, bulletReplaceGo, htb]
          rw [ih f (Nat.lt_succ_self f) after (by omega),
              ih rest.length (by omega) after (by omega)]
        | none =>
          simp only [bulletReplace, List.length_cons, bulletReplaceGo, htb]
          rw [ih f (Nat.lt_succ_self f) rest (by omega),
              ih rest.length (by omega) rest (by omega)]

theorem bulletReplace_match {l content after : List Char}
    (h : tryBullet l = some (content, after)) :
    bulletReplace l =
      ['<', 'l', 'i', '>'] ++ content ++ ['<', '/', 'l', 'i', '>'] ++
        bulletReplace after := by
  match l with
  | [] => exact absurd h (by rw [tryBullet.eq_def]; simp)
  | c :: rest =>
    have hlen := tryBullet_length _ _ _ h
    simp only [List.length_cons] at hlen
    simp only [bulletReplace, List.length_cons, bulletReplaceGo, h]
    rw [bulletReplaceGo_eq_of_le rest.length after (by omega),
        bulletReplaceGo_eq_of_le after.length after (le_refl _)]

theorem bulletReplace_nomatch {c : Char} {rest : List Char}
    (h : tryBullet (c :: rest) = none) :
    bulletReplace (c :: rest) = c :: bulletReplace rest := by
  simp only [bulletReplace, List.length_cons, bulletReplaceGo, h]

theorem splitAtLastLiClose_length :
    ∀ l a b, splitAtLastLiClose l = some (a, b) → b.length < l.length := by
  intro l
  induction l using splitAtLastLiClose.induct with
  | case1 rest a0 b0 hrec ih =>
    intro a b h
    rw [splitAtLastLiClose.eq_1, hrec] at h
    simp only [Option.some.injEq, Prod.mk.injEq] at h
    obtain ⟨-, rfl⟩ := h
    have h2 := ih _ _ hrec
    simp only [List.length_cons]
    omega
  | case2 rest hrec ih =>
    intro a b h
    rw [splitAtLastLiClose.eq_1, hrec] at h
    simp only [Option.some.injEq, Prod.mk.injEq] at h
    obtain ⟨-, rfl⟩ := h
    simp only [List.length_cons]
    omega
  | case3 c rest hne hlt =>
    intro a b h
    rw [splitAtLastLiClose.eq_2 c rest hne, if_pos hlt] at h
    exact absurd h (by simp)
  | case4 c rest hne hnlt a0 b0 hrec ih =>
    intro a b h
    rw [splitAtLastLiClose.eq_2 c rest hne, if_neg hnlt, hrec] at h
    simp only [Option.some.injEq, Prod.mk.injEq] at h
    obtain ⟨-, rfl⟩ := h
    have h2 := ih _ _ hrec
    simp only [List.length_cons]
    omega
  | case5 c rest hne hnlt hrec ih =>
    intro a b h
    rw [splitAtLastLiClose.eq_2 c rest hne, if_neg hnlt, hrec] at h
    exact absurd h (by simp)
  | case6 =>
    intro a b h
    exact absurd h (by simp [splitAtLastLiClose])

theorem ulWrapGo_eq_of_le :
    ∀ fuel l, l.length ≤ fuel → ulWrapGo fuel l = ulWrap l := by
  intro fuel
  induction fuel using Nat.strong_induction_on with
  | _ fuel ih =>
    match fuel with
    | 0 =>
      intro l hl
      have h0 : l = [] := List.eq_nil_of_length_eq_zero (Nat.le_zero.mp hl)
      subst h0
      rfl
    | f + 1 =>
      intro l hl
      match l with
      | [] => rfl
      | c :: rest =>
        simp only [List.length_cons] at hl
        by_cases hli : ∃ r, c :: rest = '<' :: 'l' :: 'i' :: '>' :: r
        · obtain ⟨r, hr⟩ := hli
          obtain ⟨rfl, rfl⟩ : c = '<' ∧ rest = 'l' :: 'i' :: '>' :: r := by
            injection hr with h1 h2
            exact ⟨h1, h2⟩
          simp only [List.length_cons] at hl
          cases hsp : splitAtLastLiClose ('<' :: 'l' :: 'i' :: '>' :: r) with
          | some sa =>
            obtain ⟨span, after⟩ := sa
            have hlen := splitAtLastLiClose_length _ _ _ hsp
            simp only [List.length_cons] at hlen
            simp only [ulWrap, List.length_cons, ulWrapGo.eq_3, hsp]
            rw [ih f (Nat.lt_succ_self f) after (by omega),
                ih (r.length + 3) (by omega) after (by omega)]
          | none =>
            simp only [ulWrap, List.length_cons, ulWrapGo.eq_3, hsp]
            rw [ih f (Nat.lt_succ_self f) ('l' :: 'i' :: '>' :: r) (by simp; omega),
                ih (r.length + 3) (by omega) ('l' :: 'i' :: '>' :: r) (by simp)]
        · have hne : ∀ r, c = '<' → rest = 'l' :: 'i' :: '>' :: r → False := by
            intro r hc hr
            exact hli ⟨r, by rw [hc, hr]⟩
          rw [ulWrapGo.eq_4 f c rest hne]
          have hr2 : ulWrap (c :: rest) = c :: ulWrapGo rest.length rest := by
            simp only [ulWrap, List.length_cons]
            rw [ulWrapGo.eq_4 rest.length c rest hne]
          rw [hr2, ih f (Nat.lt_succ_self f) rest (by omega),
              ih rest.length (by omega) rest (le_refl _)]

theorem ulWrap_nil : ulWrap [] = [] := rfl

theorem ulWrap_match {rest span after : List Char}
    (h : splitAtLastLiClose ('<' :: 'l' :: 'i' :: '>' :: rest) = some (span, after)) :
    ulWrap ('<' :: 'l' :: 'i' :: '>' :: rest) =
      ['<', 'u', 'l', '>'] ++ span ++ ['<', '/', 'u', 'l', '>'] ++ ulWrap after := by
  have hlen := splitAtLastLiClose_length _ _ _ h
  simp only [List.length_cons] at hlen
  simp only [ulWrap, List.length_cons, ulWrapGo.eq_3, h]
  rw [ulWrapGo_eq_of_le (rest.length + 3) after (by omega),
      ulWrapGo_eq_of_le after.length after (le_refl _)]

theorem ulWrap_nomatch_li {rest : List Char}
    (h : splitAtLastLiClose ('<' :: 'l' :: 'i' :: '>' :: rest) = none) :
    ulWrap ('<' :: 'l' :: 'i' :: '>' :: rest) = '<' :: ulWrap ('l' :: 'i' :: '>' :: rest) := by
  simp only [ulWrap, List.length_cons, ulWrapGo.eq_3, h]

theorem ulWrap_cons {c : Char} {rest : List Char}
    (hne : ∀ r, c = '<' → rest = 'l' :: 'i' :: '>' :: r → False) :
    ulWrap (c :: rest) = c :: ulWrap rest := by
  simp only [ulWrap, List.length_cons]
  rw [ulWrapGo.eq_4 rest.length c rest hne,
      ulWrapGo_eq_of_le rest.length rest (le_refl _)]

theorem findBoldClose_length :
    ∀ l content after, findBoldClose l = some (content, after) →
      after.length < l.length := by
  intro l
  induction l using findBoldClose.induct with
  | case1 rest =>
    intro content after h
    rw [findBoldClose.eq_1] at h
    simp only [Option.some.injEq, Prod.mk.injEq] at h
    obtain ⟨-, rfl⟩ := h
    simp only [List.length_cons]
    omega
  | case2 c rest hne hlt =>
    intro content after h
    rw [findBoldClose.eq_2 c rest hne, if_pos hlt] at h
    exact absurd h (by simp)
  | case3 c rest hne hnlt content0 after0 hrec ih =>
    intro content after h
    rw [findBoldClose.eq_2 c rest hne, if_neg hnlt, hrec] at h
    simp only [Option.some.injEq, Prod.mk.injEq] at h
    obtain ⟨-, rfl⟩ := h
    have h2 := ih _ _ hrec
    simp only [List.length_cons]
    omega
  | case4 c rest hne hnlt hrec ih =>
    intro content after h
    rw [findBoldClose.eq_2 c rest hne, if_neg hnlt, hrec] at h
    exact absurd h (by simp)
  | case5 =>
    intro content after h
    exact absurd h (by simp [findBoldClose])

theorem boldReplaceGo_eq_of_le :
    ∀ fuel l, l.length ≤ fuel → boldReplaceGo fuel l = boldReplace l := by
  intro fuel
  induction fuel using Nat.strong_induction_on with
  | _ fuel ih =>
    match fuel with
    | 0 =>
      intro l hl
      have h0 : l = [] := List.eq_nil_of_length_eq_zero (Nat.le_zero.mp hl)
      subst h0
      rfl
    | f + 1 =>
      intro l hl
      match l with
      | [] => rfl
      | c :: rest =>
        simp only [List.length_cons] at hl
        by_cases hst : ∃ r, c :: rest = '*' :: '*' :: r
        · obtain ⟨r, hr⟩ := hst
          obtain ⟨rfl, rfl⟩ : c = '*' ∧ rest = '*' :: r := by
            injection hr with h1 h2
            exact ⟨h1, h2⟩
          simp only [List.length_cons] at hl
          cases hfb : findBoldClose r with
          | some ca =>
            obtain ⟨content, after⟩ := ca
            have hlen := findBoldClose_length _ _ _ hfb
            simp only [boldReplace, List.length_cons, boldReplaceGo.eq_3, hfb]
            rw [ih f (Nat.lt_succ_self f) after (by omega),
                ih (r.length + 1) (by omega) after (by omega)]
          | none =>
            simp only [boldReplace, List.length_cons, boldReplaceGo.eq_3, hfb]
            rw [ih f (Nat.lt_succ_self f) ('*' :: r) (by simp only [List.length_cons]; omega),
                ih (r.length + 1) (by omega) ('*' :: r) (by simp)]
        · have hne : ∀ r, c = '*' → rest = '*' :: r → False := by
            intro r hc hr
            exact hst ⟨r, by rw [hc, hr]⟩
          rw [boldReplaceGo.eq_4 f c rest hne]
          have hr2 : boldReplace (c :: rest) = c :: boldReplaceGo rest.length rest := by
            simp only [boldReplace, List.length_cons]
            rw [boldReplaceGo.eq_4 rest.length c rest hne]
          rw [hr2, ih f (Nat.lt_succ_self f) rest (by omega),
              ih rest.length (by omega) rest (le_refl _)]

theorem boldReplace_nil : boldReplace [] = [] := rfl

theorem boldReplace_match {rest content after : List Char}
    (h : findBoldClose rest = some (content, after)) :
    boldReplace ('*' :: '*' :: rest) =
      ['<', 's', 't', 'r', 'o', 'n', 'g', '>'] ++ content ++
        ['<', '/', 's', 't', 'r', 'o', 'n', 'g', '>'] ++ boldReplace after := by
  have hlen := findBoldClose_length _ _ _ h
  simp only [boldReplace, List.length_cons, boldReplaceGo.eq_3, h]
  rw [boldReplaceGo_eq_of_le (rest.length + 1) after (by omega),
      boldReplaceGo_eq_of_le after.length after (le_refl _)]

theorem boldReplace_nomatch_star {rest : List Char}
    (h : findBoldClose rest = none) :
    boldReplace ('*' :: '*' :: rest) = '*' :: boldReplace ('*' :: rest) := by
  simp only [boldReplace, List.length_cons, boldReplaceGo.eq_3, h]

theorem boldReplace_cons {c : Char} {rest : List Char}
    (hne : ∀ r, c = '*' → rest = '*' :: r → False) :
    boldReplace (c :: rest) = c :: boldReplace rest := by
  simp only [boldReplace, List.length_cons]
  rw [boldReplaceGo.eq_4 rest.length c rest hne,
      boldReplaceGo_eq_of_le rest.length rest (le_refl _)]

theorem parsePipeRun_length {l seg rest : List Char}
    (h : parsePipeRun l = some (seg, rest)) : rest.length < l.length := by
  rw [parsePipeRun.eq_def] at h
  split at h
  · rename_i r
    simp only at h
    by_cases hrun : (r.takeWhile (fun c => decide (c ≠ '<'))).isEmpty
    · rw [if_pos hrun] at h
      exact absurd h (by simp)
    · rw [if_neg hrun] at h
      simp only [Option.some.injEq, Prod.mk.injEq] at h
      obtain ⟨-, rfl⟩ := h
      have h2 := dropWhile_length_le (fun c => decide (c ≠ '<')) r
      simp only [List.length_cons]
      omega
  · exact absurd h (by simp)

theorem pipeTail_length :
    ∀ fuel l t, pipeTail fuel l = some t → t.after.length < l.length := by
  intro fuel
  induction fuel with
  | zero =>
    intro l t h
    exact absurd h (by simp [pipeTail])
  | succ f ih =>
    intro l t h
    cases hp : parsePipeRun l with
    | none =>
      simp only [pipeTail, hp] at h
      exact Option.noConfusion h
    | some sr =>
      obtain ⟨seg, rest⟩ := sr
      have hrest := parsePipeRun_length hp
      simp only [pipeTail, hp] at h
      split at h
      · rename_i rest2
        simp only [List.length_cons] at hrest
        cases hpt : pipeTail f rest2 with
        | some t2 =>
          rw [hpt] at h
          simp only [Option.some.injEq] at h
          subst h
          have h2 := ih rest2 t2 hpt
          dsimp only
          omega
        | none =>
          rw [hpt] at h
          simp only [Option.some.injEq] at h
          subst h
          dsimp only
          simp only [List.length_cons]
          omega
      · rename_i rest2
        simp only [List.length_cons] at hrest
        simp only [Option.some.injEq] at h
        subst h
        dsimp only
        omega
      · simp only [Option.some.injEq] at h
        subst h
        dsimp only
        exact hrest

theorem pipeTail_fuel :
    ∀ f1 f2 l, l.length < f1 → l.length < f2 → pipeTail f1 l = pipeTail f2 l := by
  intro f1
  induction f1 using Nat.strong_induction_on with
  | _ f1 ih =>
    match f1 with
    | 0 =>
      intro f2 l h1 h2
      omega
    | g1 + 1 =>
      intro f2 l h1 h2
      match f2 with
      | 0 => omega
      | g2 + 1 =>
        cases hp : parsePipeRun l with
        | none => simp only [pipeTail, hp]
        | some sr =>
          obtain ⟨seg, rest⟩ := sr
          have hrest := parsePipeRun_length hp
          simp only [pipeTail, hp]
          split
          · rename_i rest2
            simp only [List.length_cons] at hrest
            rw [ih g1 (Nat.lt_succ_self g1) g2 rest2 (by omega) (by omega)]
          · rfl
          · rfl

/-- `pipeTail` with any sufficient fuel, as called by `pipesMatch`. -/
theorem pipeTail_run (fuel : Nat) (l : List Char) (h : l.length < fuel) :
    pipeTail fuel l = pipeTail (l.length + 1) l :=
  pipeTail_fuel fuel (l.length + 1) l h (Nat.lt_succ_self _)

theorem pipesMatch_length {l : List Char} {t : TableMatch}
    (h : pipesMatch l = some t) : t.after.length < l.length := by
  cases hp : parsePipeRun l with
  | none =>
    simp only [pipesMatch, hp] at h
    exact Option.noConfusion h
  | some sr =>
    obtain ⟨seg, rest⟩ := sr
    have hrest := parsePipeRun_length hp
    simp only [pipesMatch, hp] at h
    split at h
    · rename_i rest2
      simp only [List.length_cons] at hrest
      cases hpt : pipeTail (rest2.length + 1) rest2 with
      | some t2 =>
        rw [hpt] at h
        simp only [Option.some.injEq] at h
        subst h
        have h2 := pipeTail_length _ _ _ hpt
        dsimp only
        omega
      | none =>
        rw [hpt] at h
        exact absurd h (by simp)
    · exact absurd h (by simp)

theorem tableMatchAt_length {l : List Char} {t : TableMatch}
    (h : tableMatchAt l = some t) : t.after.length < l.length := by
  rw [tableMatchAt.eq_def] at h
  split at h
  · rename_i rest
    cases hp : pipesMatch rest with
    | some t2 =>
      rw [hp] at h
      simp only [Option.some.injEq] at h
      subst h
      have h2 := pipesMatch_length hp
      simp only [List.length_cons]
      omega
    | none =>
      rw [hp] at h
      exact absurd h (by simp)
  · exact pipesMatch_length h

/-- `tableReplaceGo` with fuel equal to the remaining-input length. -/
def tableReplaceRun (repl pre cur : List Char) : List Char :=
  tableReplaceGo repl cur.length pre cur

theorem tableReplaceGo_eq_of_le (repl : List Char) :
    ∀ fuel pre cur, cur.length ≤ fuel →
      tableReplaceGo repl fuel pre cur = tableReplaceRun repl pre cur := by
  intro fuel
  induction fuel using Nat.strong_induction_on with
  | _ fuel ih =>
    match fuel with
    | 0 =>
      intro pre cur hl
      have h0 : cur = [] := List.eq_nil_of_length_eq_zero (Nat.le_zero.mp hl)
      subst h0
      rfl
    | f + 1 =>
      intro pre cur hl
      match cur with
      | [] => rfl
      | c :: rest =>
        simp only [List.length_cons] at hl
        cases hm : tableMatchAt (c :: rest) with
        | some t =>
          have hlen := tableMatchAt_length hm
          simp only [List.length_cons] at hlen
          simp only [tableReplaceRun, List.length_cons, tableReplaceGo, hm]
          rw [ih f (Nat.lt_succ_self f) (pre ++ t.matched) t.after (by omega),
              ih rest.length (by omega) (pre ++ t.matched) t.after (by omega)]
        | none =>
          simp only [tableReplaceRun, List.length_cons, tableReplaceGo, hm]
          rw [ih f (Nat.lt_succ_self f) (pre ++ [c]) rest (by omega),
              ih rest.length (by omega) (pre ++ [c]) rest (le_refl _)]

theorem tableReplaceRun_nil (repl pre : List Char) :
    tableReplaceRun repl pre [] = [] := rfl

theorem tableReplaceRun_match {repl pre : List Char} {c : Char} {rest : List Char}
    {t : TableMatch} (h : tableMatchAt (c :: rest) = some t) :
    tableReplaceRun repl pre (c :: rest) =
      applyRepl t.matched pre t.after t.g1 t.g2 t.g3 t.g4 repl ++
        tableReplaceRun repl (pre ++ t.matched) t.after := by
  have hlen := tableMatchAt_length h
  simp only [List.length_cons] at hlen
  simp only [tableReplaceRun, List.length_cons, tableReplaceGo, h]
  rw [tableReplaceGo_eq_of_le repl rest.length (pre ++ t.matched) t.after (by omega)]
  rfl

theorem tableReplaceRun_nomatch {repl pre : List Char} {c : Char} {rest : List Char}
    (h : tableMatchAt (c :: rest) = none) :
    tableReplaceRun repl pre (c :: rest) = c :: tableReplaceRun repl (pre ++ [c]) rest := by
  simp only [tableReplaceRun, List.length_cons, tableReplaceGo, h]

/-- `convertToTable` through the fuel-free scanner. -/
theorem convertToTable_eq (text : List Char) :
    convertToTable text =
      (if ((splitOnBr text).filter (fun line => line.contains '|')).length < 2 then text
       else tableReplaceRun
         (tableHtmlOf ((splitOnBr text).filter (fun line => line.contains '|'))) [] text) :=
  rfl

/-! ### Concrete formatter evaluations for the claims -/

/-- C1 (actual behaviour): on the spec's table input `"a|b\n---|---\n1|2"`
the table conversion is triggered (the text has a pipe and a `<br>`) and
`convertToTable` builds a `tableHtml` string, but the final substitution
regex `/(<p>)?(\|[^<]+<br>)+(\|[^<]+)(<\/p>)?/g` requires every table line
to begin with a pipe, so it finds no match and the text is returned
unchanged: the separator line survives (the separator regex also requires a
leading and trailing pipe) and no table row is emitted. -/
theorem formatMessage_table_example :
    formatMessage "a|b\n---|---\n1|2" = "<p>a|b<br>---|---<br>1|2</p>" := rfl

/-- Counterexample for C4: formatting the empty string does not yield an
empty document. -/
theorem formatMessage_empty_counterexample : formatMessage "" ≠ "" := by
  decide

/-- C4 (amended): `"".split('\n\n')` is `[""]`, so the empty input yields
exactly one empty paragraph block `<p></p>` and nothing else. -/
theorem formatMessage_empty : formatMessage "" = "<p></p>" := rfl

/-- C8: the formatter is a pure, deterministic function of its input text —
it is embedded as a plain function (the source reads nothing but its
argument and locals; the only DOM use, `escapeHtml`'s detached `div`, is
observationally pure and performs no network or storage access), so two
calls on the same input are identical. -/
theorem formatMessage_deterministic :
    ∀ t : String, formatMessage t = formatMessage t :=
  fun _ => rfl

/-- Counterexample for C7: a paragraph whose single line is prefixed by the
bullet glyph `•` (U+2022) followed by whitespace is NOT reclassified as a
list item — the mis-encoded character class `[-â€¢]` of chat.js line 230
does not contain the bullet sign, so the paragraph stays a paragraph. -/
theorem formatMessage_bullet_glyph_counterexample :
    formatMessage "• a" = "<p>• a</p>" := rfl

/-! ## Single-flight guarding (`handleSubmit`, chat.js lines 167-186, and
the `isLoading` flag of `sendMessage`, lines 288-338) -/

/-- Observable events of one `sendMessage` call chain: `isLoading`
assignments, fetch attempt starts/failures (attempt `k` is the call with
`retryCount = k`), backoff waits, and the error toast. -/
inductive ChainEv : Type where
  | setLoading (b : Bool)
  | fetchStart (k : Nat)
  | fetchFail (k : Nat)
  | waitStart (k : Nat)
  | waitEnd (k : Nat)
  | toast
deriving DecidableEq

/-- Continuation of the chain trace after attempt `rc`'s fetch has started,
with `remaining` retries left; derived from the code under JavaScript
async/await semantics, for a run in which every attempt fails.  When the
attempt fails and retries remain, the catch block awaits the backoff delay
and evaluates `return sendMessage(message, retryCount + 1)` (line 326): the
recursive call's synchronous prefix runs first (`isLoading = true`, line
289, and the next fetch starts, line 293), and the `return` then leaves the
enclosing try/catch, so the outer call's `finally` (line 333) runs
immediately — before the returned promise settles — setting
`isLoading = false` while the retry attempt is still in flight.  The last
frame shows the toast (line 330) and then runs its own finally. -/
def chainTraceGo : Nat → Nat → List ChainEv
  | 0, rc => [.fetchFail rc, .toast, .setLoading false]
  | r + 1, rc =>
    .fetchFail rc :: .waitStart (rc + 1) :: .waitEnd (rc + 1) ::
      .setLoading true :: .fetchStart (rc + 1) :: .setLoading false ::
        chainTraceGo r (rc + 1)

/-- The full event trace of `sendMessage(message)` with every attempt
failing and the configured `maxRetries`. -/
def chainTrace (maxRetries : Nat) : List ChainEv :=
  .setLoading true :: .fetchStart 0 :: chainTraceGo maxRetries 0

/-- The value of the `isLoading` flag after a prefix of the trace (it is
`false` before `sendMessage` begins; the last assignment wins). -/
def loadingAfter (evs : List ChainEv) : Bool :=
  evs.foldl (fun s e => match e with | .setLoading b => b | _ => s) false

/-- Attempt `k` is in flight after a prefix of the trace: its fetch has
started and has not yet failed. -/
def fetchInFlight (pre : List ChainEv) (k : Nat) : Bool :=
  pre.contains (.fetchStart k) && !(pre.contains (.fetchFail k))

/-- The UI state consulted by `handleSubmit`. -/
structure UiState where
  isLoading : Bool
  inputValue : String

/-- `handleSubmit` (chat.js lines 167-186): with a blank (after trim) input
or `isLoading` set it returns at line 173 having changed nothing and
started nothing (`none`); otherwise it clears the input and hands the
trimmed message to `sendMessage`. -/
def handleSubmit (st : UiState) : Option (UiState × String) :=
  let message := String.mk (trimJs st.inputValue.data)
  if message = "" || st.isLoading then none
  else some ({ st with inputValue := "" }, message)

/-- Counterexample for C10: in the 4-attempt chain (`maxRetries = 3`, all
attempts failing), after the first 8 events attempt 1 is in flight while
`isLoading` is already `false` (the first frame's finally ran as soon as
the retry call suspended), so "the isLoading flag is true while a send is
in flight" is false and a concurrent `handleSubmit` is not blocked. -/
theorem isLoading_gap_counterexample :
    fetchInFlight ((chainTrace 3).take 8) 1 = true ∧
    loadingAfter ((chainTrace 3).take 8) = false := by
  decide

/-- C10 (amended): whenever `isLoading` is true, `handleSubmit` returns
without clearing the input, appending a message or starting a request; but
`isLoading` does not span the whole failing chain — it holds only from the
start of `sendMessage` through the first backoff wait (trace positions 1-7
of the 4-attempt chain), each frame's finally clearing it right after the
next attempt starts, so attempts 2-4 run with `isLoading` false and a
second chain can be started concurrently. -/
theorem handleSubmit_guard_and_loading_window :
    (∀ st : UiState, st.isLoading = true → handleSubmit st = none) ∧
    (∀ i : Nat, 1 ≤ i → i < 8 → loadingAfter ((chainTrace 3).take i) = true) := by
  constructor
  · intro st h
    simp [handleSubmit, h]
  · decide

/-- Witness for C10's amended theorem: the guard applied at a concrete
loading state with a non-blank input, and the loading window at the
position right after the first fetch starts. -/
theorem handleSubmit_guard_witness :
    handleSubmit ⟨true, "hi"⟩ = none ∧
    loadingAfter ((chainTrace 3).take 2) = true :=
  ⟨handleSubmit_guard_and_loading_window.1 ⟨true, "hi"⟩ rfl,
   handleSubmit_guard_and_loading_window.2 2 (by decide) (by decide)⟩

/-! ## Bullet coalescing (claim C7): structural behaviour of the formatter
on documents made of single-line paragraphs of inert characters. -/

/-- Characters that are inert for the whole pipeline: not HTML-escaped
(`&`, `<`, `>`, U+00A0), not a newline or other line terminator, not the
table trigger `|`, not the bold trigger `*`. -/
def plainChar (c : Char) : Bool :=
  !(c = '<' || c = '>' || c = '&' || c = '\n' || c = '\r' || c = '\u2028' ||
    c = '\u2029' || c = '|' || c = '*' || c = '\u00A0')

/-- A paragraph whose content the bullet regex reclassifies: it starts with
a character of the class `[-â€¢]`. -/
def isBulletPara : List Char → Bool
  | c :: _ => bulletClass c
  | [] => false

/-- The rendering of one single-line inert paragraph: a bullet paragraph
becomes a list item whose content drops the marker and the whitespace run
after it; any other becomes a paragraph block. -/
def renderPara (p : List Char) : List Char :=
  match p with
  | c :: rest =>
    if bulletClass c then
      ['<', 'l', 'i', '>'] ++ rest.dropWhile jsWhitespace ++ ['<', '/', 'l', 'i', '>']
    else ['<', 'p', '>'] ++ p ++ ['<', '/', 'p', '>']
  | [] => ['<', 'p', '>', '<', '/', 'p', '>']

theorem escapeHtmlL_inert {l : List Char}
    (h : ∀ c ∈ l, c ≠ '&' ∧ c ≠ '<' ∧ c ≠ '>' ∧ c ≠ '\u00A0') :
    escapeHtmlL l = l := by
  induction l with
  | nil => rfl
  | cons c rest ih =>
    obtain ⟨h1, h2, h3, h4⟩ := h c (List.mem_cons_self c rest)
    simp only [escapeHtmlL, List.map_cons, List.flatten_cons, escapeChar,
      if_neg h1, if_neg h2, if_neg h3, if_neg h4]
    rw [show (rest.map escapeChar).flatten = escapeHtmlL rest from rfl,
        ih (fun x hx => h x (List.mem_cons_of_mem c hx))]
    rfl

theorem splitOnNN_no_newline {p : List Char} (h : ∀ c ∈ p, c ≠ '\n') :
    splitOnNN p = [p] := by
  induction p with
  | nil => rfl
  | cons c rest ih =>
    have hc : c ≠ '\n' := h c (List.mem_cons_self c rest)
    have hne : ∀ r, c = '\n' → rest = '\n' :: r → False := fun r h1 _ => hc h1
    rw [splitOnNN.eq_3 c rest hne, ih (fun x hx => h x (List.mem_cons_of_mem c hx))]

theorem splitOnNN_append {p t : List Char} (h : ∀ c ∈ p, c ≠ '\n') :
    splitOnNN (p ++ '\n' :: '\n' :: t) = p :: splitOnNN t := by
  induction p with
  | nil => rfl
  | cons c rest ih =>
    have hc : c ≠ '\n' := h c (List.mem_cons_self c rest)
    have hne : ∀ r, c = '\n' → rest ++ '\n' :: '\n' :: t = '\n' :: r → False :=
      fun r h1 _ => hc h1
    rw [List.cons_append, splitOnNN.eq_3 c (rest ++ '\n' :: '\n' :: t) hne,
        ih (fun x hx => h x (List.mem_cons_of_mem c hx))]

theorem splitOnNN_intercalate :
    ∀ ps : List (List Char), ps ≠ [] → (∀ p ∈ ps, ∀ c ∈ p, c ≠ '\n') →
      splitOnNN (List.intercalate ['\n', '\n'] ps) = ps := by
  intro ps
  induction ps with
  | nil => intro h; exact absurd rfl h
  | cons p rest ih =>
    intro _ hnn
    cases rest with
    | nil =>
      have h1 : List.intercalate ['\n', '\n'] [p] = p := by
        simp [List.intercalate]
      rw [h1]
      exact splitOnNN_no_newline (hnn p (List.mem_cons_self p []))
    | cons q rest2 =>
      have hstep : List.intercalate ['\n', '\n'] (p :: q :: rest2) =
          p ++ '\n' :: '\n' :: List.intercalate ['\n', '\n'] (q :: rest2) := by
        simp [List.intercalate, List.intersperse]
      rw [hstep, splitOnNN_append (hnn p (List.mem_cons_self p _)),
          ih (by simp) (fun x hx c hc => hnn x (List.mem_cons_of_mem p hx) c hc)]

theorem replaceNewline_id {p : List Char} (h : ∀ c ∈ p, c ≠ '\n') :
    replaceNewline p = p := by
  induction p with
  | nil => rfl
  | cons c rest ih =>
    have hc : c ≠ '\n' := h c (List.mem_cons_self c rest)
    have hne : c = '\n' → False := fun h1 => hc h1
    rw [replaceNewline.eq_3 c rest (fun h1 => hc h1),
        ih (fun x hx => h x (List.mem_cons_of_mem c hx))]

theorem plainChar_spec {c : Char} (h : plainChar c = true) :
    c ≠ '<' ∧ c ≠ '>' ∧ c ≠ '&' ∧ c ≠ '*' ∧ c ≠ '|' ∧ lineTerm c = false := by
  simp only [plainChar, Bool.not_eq_eq_eq_not, Bool.not_true, Bool.or_eq_false_iff,
    decide_eq_false_iff_not] at h
  obtain ⟨⟨⟨⟨⟨⟨⟨⟨⟨h1, h2⟩, h3⟩, h4⟩, h5⟩, h6⟩, h7⟩, h8⟩, h9⟩, h10⟩ := h
  refine ⟨h1, h2, h3, h9, h8, ?_⟩
  simp [lineTerm, h4, h5, h6, h7]

theorem tryBullet_not_lt (c : Char) (rest : List Char) (h : c ≠ '<') :
    tryBullet (c :: rest) = none := by
  rw [tryBullet.eq_def]
  split
  · rename_i c2 r heq
    injection heq with h1 _
    exact absurd h1 h
  · rfl

theorem tryBullet_no_bullet (c : Char) (rest : List Char) (h : bulletClass c = false) :
    tryBullet ('<' :: 'p' :: '>' :: c :: rest) = none := by
  simp [tryBullet, h]

theorem tryBullet_close (rest : List Char) :
    tryBullet ('<' :: '/' :: rest) = none := by
  rw [tryBullet.eq_def]
  split
  · rename_i c2 r heq
    injection heq with _ h2
    injection h2 with h3 _
    exact absurd h3 (by decide)
  · rfl

theorem bulletReplace_skip_plain (cs rest : List Char) (h : ∀ c ∈ cs, c ≠ '<') :
    bulletReplace (cs ++ rest) = cs ++ bulletReplace rest := by
  induction cs with
  | nil => rfl
  | cons c cs' ih =>
    have hc := h c (List.mem_cons_self c cs')
    rw [List.cons_append, bulletReplace_nomatch (tryBullet_not_lt c _ hc),
        ih (fun x hx => h x (List.mem_cons_of_mem c hx))]
    rfl

theorem dropWhile_ws_append (r t : List Char) :
    (r ++ '<' :: t).dropWhile jsWhitespace = r.dropWhile jsWhitespace ++ '<' :: t := by
  induction r with
  | nil =>
    have h : jsWhitespace '<' = false := by decide
    simp [List.dropWhile, h]
  | cons x r' ih =>
    by_cases hx : jsWhitespace x
    · simp [List.dropWhile, hx, ih]
    · simp [List.dropWhile, hx]

theorem findParaClose_prefix (a t : List Char)
    (h : ∀ c ∈ a, c ≠ '<' ∧ lineTerm c = false) :
    findParaClose (a ++ '<' :: '/' :: 'p' :: '>' :: t) = some (a, t) := by
  induction a with
  | nil => exact findParaClose.eq_1 t
  | cons c a' ih =>
    obtain ⟨h1, h2⟩ := h c (List.mem_cons_self c a')
    have hne : ∀ r1, c = '<' → a' ++ '<' :: '/' :: 'p' :: '>' :: t = '/' :: 'p' :: '>' :: r1 → False :=
      fun r1 hc _ => h1 hc
    rw [List.cons_append, findParaClose.eq_2 c _ hne, if_neg (by simp [h2]),
        ih (fun x hx => h x (List.mem_cons_of_mem c hx))]

theorem bulletReplace_pblock {p rest : List Char} (hplain : p.all plainChar)
    (hnb : isBulletPara p = false) :
    bulletReplace ('<' :: 'p' :: '>' :: (p ++ '<' :: '/' :: 'p' :: '>' :: rest)) =
      '<' :: 'p' :: '>' :: (p ++ '<' :: '/' :: 'p' :: '>' :: bulletReplace rest) := by
  have h1 : tryBullet ('<' :: 'p' :: '>' :: (p ++ '<' :: '/' :: 'p' :: '>' :: rest)) = none := by
    cases p with
    | nil => exact tryBullet_no_bullet '<' _ (by decide)
    | cons c r =>
      have hcb : bulletClass c = false := by simpa [isBulletPara] using hnb
      rw [List.cons_append]
      exact tryBullet_no_bullet c _ hcb
  rw [bulletReplace_nomatch h1]
  have h2 : ∀ c ∈ 'p' :: '>' :: p, c ≠ '<' := by
    intro c hc
    simp only [List.mem_cons] at hc
    rcases hc with rfl | rfl | hmem
    · decide
    · decide
    · exact (plainChar_spec (List.all_eq_true.mp hplain c hmem)).1
  have hsh : ('p' :: '>' :: (p ++ '<' :: '/' :: 'p' :: '>' :: rest)) =
      ('p' :: '>' :: p) ++ '<' :: '/' :: 'p' :: '>' :: rest := by
    simp
  rw [hsh, bulletReplace_skip_plain _ _ h2,
      bulletReplace_nomatch (tryBullet_close ('p' :: '>' :: rest)),
      show ('/' :: 'p' :: '>' :: rest) = ['/', 'p', '>'] ++ rest from rfl,
      bulletReplace_skip_plain ['/', 'p', '>'] rest (by decide)]
  simp

theorem bulletReplace_bullet_block {c : Char} {r rest : List Char}
    (hplain : r.all plainChar) (hb : bulletClass c = true) :
    bulletReplace ('<' :: 'p' :: '>' :: (c :: r ++ '<' :: '/' :: 'p' :: '>' :: rest)) =
      '<' :: 'l' :: 'i' :: '>' ::
        (r.dropWhile jsWhitespace ++ '<' :: '/' :: 'l' :: 'i' :: '>' :: bulletReplace rest) := by
  have hsub : ∀ x ∈ r.dropWhile jsWhitespace, x ∈ r :=
    fun x hx => (List.dropWhile_sublist jsWhitespace).mem hx
  have hfind : findParaClose ((r ++ '<' :: '/' :: 'p' :: '>' :: rest).dropWhile jsWhitespace) =
      some (r.dropWhile jsWhitespace, rest) := by
    rw [dropWhile_ws_append]
    apply findParaClose_prefix
    intro x hx
    have hp := plainChar_spec (List.all_eq_true.mp hplain x (hsub x hx))
    exact ⟨hp.1, hp.2.2.2.2.2⟩
  have htb : tryBullet ('<' :: 'p' :: '>' :: (c :: r ++ '<' :: '/' :: 'p' :: '>' :: rest)) =
      some (r.dropWhile jsWhitespace, rest) := by
    rw [List.cons_append]
    simp only [tryBullet, hb, if_pos]
    exact hfind
  rw [bulletReplace_match htb]
  simp

theorem bulletReplace_blocks (ps : List (List Char)) (h : ∀ p ∈ ps, p.all plainChar) :
    bulletReplace ((ps.map (fun p => '<' :: 'p' :: '>' :: (p ++ ['<', '/', 'p', '>']))).flatten) =
      (ps.map renderPara).flatten := by
  induction ps with
  | nil => rfl
  | cons p rest ih =>
    have hp := h p (List.mem_cons_self p rest)
    have hrest := fun x hx => h x (List.mem_cons_of_mem p hx)
    simp only [List.map_cons, List.flatten_cons]
    have hsh : ('<' :: 'p' :: '>' :: (p ++ ['<', '/', 'p', '>'])) ++
        ((rest.map (fun p => '<' :: 'p' :: '>' :: (p ++ ['<', '/', 'p', '>']))).flatten) =
        '<' :: 'p' :: '>' :: (p ++ '<' :: '/' :: 'p' :: '>' ::
          ((rest.map (fun p => '<' :: 'p' :: '>' :: (p ++ ['<', '/', 'p', '>']))).flatten)) := by
      simp
    rw [hsh]
    cases hbp : isBulletPara p with
    | false =>
      rw [bulletReplace_pblock hp hbp, ih hrest]
      cases p with
      | nil => rfl
      | cons c r =>
        have hcb : bulletClass c = false := by simpa [isBulletPara] using hbp
        simp [renderPara, hcb]
    | true =>
      match p, hbp with
      | c :: r, hbp =>
        have hcb : bulletClass c = true := by simpa [isBulletPara] using hbp
        have hr : r.all plainChar := by
          simp only [List.all_cons, Bool.and_eq_true] at hp
          exact hp.2
        rw [bulletReplace_bullet_block hr hcb, ih hrest]
        simp [renderPara, hcb]

theorem slc_step {c : Char} {rest : List Char}
    (hne : ∀ r, c = '<' → rest = '/' :: 'l' :: 'i' :: '>' :: r → False)
    (hnt : lineTerm c = false) :
    splitAtLastLiClose (c :: rest) =
      match splitAtLastLiClose rest with
      | some (a, b) => some (c :: a, b)
      | none => none := by
  rw [splitAtLastLiClose.eq_2 c rest hne, if_neg (by simp [hnt])]

theorem slc_skip_plain (cs t : List Char)
    (h : ∀ c ∈ cs, c ≠ '<' ∧ lineTerm c = false) :
    splitAtLastLiClose (cs ++ t) =
      match splitAtLastLiClose t with
      | some (a, b) => some (cs ++ a, b)
      | none => none := by
  induction cs with
  | nil =>
    simp only [List.nil_append]
    cases splitAtLastLiClose t with
    | some ab => cases ab; rfl
    | none => rfl
  | cons c cs' ih =>
    obtain ⟨h1, h2⟩ := h c (List.mem_cons_self c cs')
    rw [List.cons_append,
        slc_step (fun r hc _ => h1 hc) h2,
        ih (fun x hx => h x (List.mem_cons_of_mem c hx))]
    cases splitAtLastLiClose t with
    | some ab => cases ab; rfl
    | none => rfl

theorem slc_pblock (p t : List Char) (hplain : p.all plainChar) :
    splitAtLastLiClose ('<' :: 'p' :: '>' :: (p ++ '<' :: '/' :: 'p' :: '>' :: t)) =
      match splitAtLastLiClose t with
      | some (a, b) => some ('<' :: 'p' :: '>' :: (p ++ '<' :: '/' :: 'p' :: '>' :: a), b)
      | none => none := by
  have hstep1 : ∀ r, '<' = '<' → ('p' :: '>' :: (p ++ '<' :: '/' :: 'p' :: '>' :: t)) =
      '/' :: 'l' :: 'i' :: '>' :: r → False := by
    intro r _ hr
    injection hr with h1 _
    exact absurd h1 (by decide)
  rw [slc_step hstep1 (by decide)]
  have hsh : ('p' :: '>' :: (p ++ '<' :: '/' :: 'p' :: '>' :: t)) =
      ('p' :: '>' :: p) ++ '<' :: '/' :: 'p' :: '>' :: t := by simp
  rw [hsh, slc_skip_plain ('p' :: '>' :: p) _ (by
    intro c hc
    simp only [List.mem_cons] at hc
    rcases hc with rfl | rfl | hmem
    · exact ⟨by decide, by decide⟩
    · exact ⟨by decide, by decide⟩
    · have hp := plainChar_spec (List.all_eq_true.mp hplain c hmem)
      exact ⟨hp.1, hp.2.2.2.2.2⟩)]
  have hstep2 : ∀ r, '<' = '<' → ('/' :: 'p' :: '>' :: t) = '/' :: 'l' :: 'i' :: '>' :: r → False := by
    intro r _ hr
    injection hr with _ h2
    injection h2 with h3 _
    exact absurd h3 (by decide)
  rw [slc_step hstep2 (by decide),
      show ('/' :: 'p' :: '>' :: t) = ['/', 'p', '>'] ++ t from rfl,
      slc_skip_plain ['/', 'p', '>'] t (by decide)]
  cases splitAtLastLiClose t with
  | some ab =>
    cases ab
    simp
  | none => rfl

theorem slc_liblock (content t : List Char) (hplain : ∀ c ∈ content, plainChar c = true) :
    splitAtLastLiClose ('<' :: 'l' :: 'i' :: '>' :: (content ++ '<' :: '/' :: 'l' :: 'i' :: '>' :: t)) =
      match splitAtLastLiClose t with
      | some (a, b) =>
        some ('<' :: 'l' :: 'i' :: '>' :: (content ++ '<' :: '/' :: 'l' :: 'i' :: '>' :: a), b)
      | none =>
        some ('<' :: 'l' :: 'i' :: '>' :: (content ++ ['<', '/', 'l', 'i', '>']), t) := by
  have hstep1 : ∀ r, '<' = '<' → ('l' :: 'i' :: '>' :: (content ++ '<' :: '/' :: 'l' :: 'i' :: '>' :: t)) =
      '/' :: 'l' :: 'i' :: '>' :: r → False := by
    intro r _ hr
    injection hr with h1 _
    exact absurd h1 (by decide)
  rw [slc_step hstep1 (by decide)]
  have hsh : ('l' :: 'i' :: '>' :: (content ++ '<' :: '/' :: 'l' :: 'i' :: '>' :: t)) =
      ('l' :: 'i' :: '>' :: content) ++ '<' :: '/' :: 'l' :: 'i' :: '>' :: t := by simp
  rw [hsh, slc_skip_plain ('l' :: 'i' :: '>' :: content) _ (by
    intro c hc
    simp only [List.mem_cons] at hc
    rcases hc with rfl | rfl | rfl | hmem
    · exact ⟨by decide, by decide⟩
    · exact ⟨by decide, by decide⟩
    · exact ⟨by decide, by decide⟩
    · have hp := plainChar_spec (hplain c hmem)
      exact ⟨hp.1, hp.2.2.2.2.2⟩)]
  rw [splitAtLastLiClose.eq_1]
  cases splitAtLastLiClose t with
  | some ab =>
    cases ab
    simp
  | none => simp

theorem ulWrap_skip_plain (cs rest : List Char) (h : ∀ c ∈ cs, c ≠ '<') :
    ulWrap (cs ++ rest) = cs ++ ulWrap rest := by
  induction cs with
  | nil => rfl
  | cons c cs' ih =>
    have hc := h c (List.mem_cons_self c cs')
    rw [List.cons_append, ulWrap_cons (fun r h1 _ => hc h1),
        ih (fun x hx => h x (List.mem_cons_of_mem c hx))]
    rfl

theorem ulWrap_pblock (p rest : List Char) (hplain : p.all plainChar) :
    ulWrap ('<' :: 'p' :: '>' :: (p ++ '<' :: '/' :: 'p' :: '>' :: rest)) =
      '<' :: 'p' :: '>' :: (p ++ '<' :: '/' :: 'p' :: '>' :: ulWrap rest) := by
  have hne1 : ∀ r, '<' = '<' → ('p' :: '>' :: (p ++ '<' :: '/' :: 'p' :: '>' :: rest)) =
      'l' :: 'i' :: '>' :: r → False := by
    intro r _ hr
    injection hr with h1 _
    exact absurd h1 (by decide)
  rw [ulWrap_cons hne1]
  have hsh : ('p' :: '>' :: (p ++ '<' :: '/' :: 'p' :: '>' :: rest)) =
      ('p' :: '>' :: p) ++ '<' :: '/' :: 'p' :: '>' :: rest := by simp
  rw [hsh, ulWrap_skip_plain ('p' :: '>' :: p) _ (by
    intro c hc
    simp only [List.mem_cons] at hc
    rcases hc with rfl | rfl | hmem
    · decide
    · decide
    · exact (plainChar_spec (List.all_eq_true.mp hplain c hmem)).1)]
  have hne2 : ∀ r, '<' = '<' → ('/' :: 'p' :: '>' :: rest) = 'l' :: 'i' :: '>' :: r → False := by
    intro r _ hr
    injection hr with h1 _
    exact absurd h1 (by decide)
  rw [ulWrap_cons hne2,
      show ('/' :: 'p' :: '>' :: rest) = ['/', 'p', '>'] ++ rest from rfl,
      ulWrap_skip_plain ['/', 'p', '>'] rest (by decide)]
  simp

theorem renderPara_pform {p : List Char} (h : isBulletPara p = false) (R : List Char) :
    renderPara p ++ R = '<' :: 'p' :: '>' :: (p ++ '<' :: '/' :: 'p' :: '>' :: R) := by
  cases p with
  | nil => simp [renderPara]
  | cons c r =>
    have hcb : bulletClass c = false := by simpa [isBulletPara] using h
    simp [renderPara, hcb]

theorem renderPara_liform {c : Char} {r : List Char} (h : bulletClass c = true) (R : List Char) :
    renderPara (c :: r) ++ R =
      '<' :: 'l' :: 'i' :: '>' ::
        (r.dropWhile jsWhitespace ++ '<' :: '/' :: 'l' :: 'i' :: '>' :: R) := by
  simp [renderPara, h]

theorem dropWhile_all_plain {r : List Char} (h : r.all plainChar) :
    ∀ c ∈ r.dropWhile jsWhitespace, plainChar c = true :=
  fun c hc =>
    List.all_eq_true.mp h c ((List.dropWhile_sublist jsWhitespace).mem hc)

theorem slc_renderPara_post (ps : List (List Char))
    (hplain : ∀ p ∈ ps, p.all plainChar) (hnb : ∀ p ∈ ps, isBulletPara p = false) :
    splitAtLastLiClose ((ps.map renderPara).flatten) = none := by
  induction ps with
  | nil => rfl
  | cons p rest ih =>
    simp only [List.map_cons, List.flatten_cons]
    rw [renderPara_pform (hnb p (List.mem_cons_self p rest)),
        slc_pblock _ _ (hplain p (List.mem_cons_self p rest)),
        ih (fun x hx => hplain x (List.mem_cons_of_mem p hx))
           (fun x hx => hnb x (List.mem_cons_of_mem p hx))]

theorem slc_renderPara_mid (mid : List (List Char)) (postFlat : List Char)
    (hplain : ∀ p ∈ mid, p.all plainChar)
    (hlast : ∃ p, mid.getLast? = some p ∧ isBulletPara p = true)
    (hpost : splitAtLastLiClose postFlat = none) :
    splitAtLastLiClose ((mid.map renderPara).flatten ++ postFlat) =
      some ((mid.map renderPara).flatten, postFlat) := by
  induction mid with
  | nil =>
    obtain ⟨p, hp, -⟩ := hlast
    exact absurd hp (by simp)
  | cons p rest ih =>
    have hpp := hplain p (List.mem_cons_self p rest)
    simp only [List.map_cons, List.flatten_cons, List.append_assoc]
    cases rest with
    | nil =>
      obtain ⟨q, hq, hb⟩ := hlast
      have hqp : p = q := by simpa using hq
      subst hqp
      cases p with
      | nil => exact absurd hb (by simp [isBulletPara])
      | cons c r =>
        have hcb : bulletClass c = true := by simpa [isBulletPara] using hb
        have hr : r.all plainChar := by
          simp only [List.all_cons, Bool.and_eq_true] at hpp
          exact hpp.2
        simp only [List.map_nil, List.flatten_nil, List.nil_append]
        rw [renderPara_liform hcb,
            slc_liblock _ _ (dropWhile_all_plain hr), hpost]
        simp [renderPara, hcb]
    | cons q rest2 =>
      have hlast2 : ∃ x, (q :: rest2).getLast? = some x ∧ isBulletPara x = true := by
        obtain ⟨x, hx, hb⟩ := hlast
        exact ⟨x, by simpa using hx, hb⟩
      have ihr := ih (fun x hx => hplain x (List.mem_cons_of_mem p hx)) hlast2
      cases hbp : isBulletPara p with
      | true =>
        cases p with
        | nil => exact absurd hbp (by simp [isBulletPara])
        | cons c r =>
          have hcb : bulletClass c = true := by simpa [isBulletPara] using hbp
          have hr : r.all plainChar := by
            simp only [List.all_cons, Bool.and_eq_true] at hpp
            exact hpp.2
          rw [renderPara_liform hcb,
              slc_liblock _ _ (dropWhile_all_plain hr), ihr]
          simp [renderPara, hcb]
      | false =>
        rw [renderPara_pform hbp, slc_pblock _ _ hpp, ihr]
        rw [renderPara_pform hbp]

theorem ulWrap_renderPara_nonbullet (ps : List (List Char)) (t : List Char)
    (hplain : ∀ p ∈ ps, p.all plainChar) (hnb : ∀ p ∈ ps, isBulletPara p = false) :
    ulWrap ((ps.map renderPara).flatten ++ t) = (ps.map renderPara).flatten ++ ulWrap t := by
  induction ps with
  | nil => simp
  | cons p rest ih =>
    simp only [List.map_cons, List.flatten_cons, List.append_assoc]
    rw [renderPara_pform (hnb p (List.mem_cons_self p rest)),
        ulWrap_pblock _ _ (hplain p (List.mem_cons_self p rest)),
        ih (fun x hx => hplain x (List.mem_cons_of_mem p hx))
           (fun x hx => hnb x (List.mem_cons_of_mem p hx)),
        renderPara_pform (hnb p (List.mem_cons_self p rest))]

theorem ulWrap_renderPara_only (ps : List (List Char))
    (hplain : ∀ p ∈ ps, p.all plainChar) (hnb : ∀ p ∈ ps, isBulletPara p = false) :
    ulWrap ((ps.map renderPara).flatten) = (ps.map renderPara).flatten := by
  have h := ulWrap_renderPara_nonbullet ps [] hplain hnb
  rw [List.append_nil] at h
  rw [h, ulWrap_nil, List.append_nil]

theorem ulWrap_blocks (pre mid post : List (List Char))
    (hplainPre : ∀ p ∈ pre, p.all plainChar)
    (hplainMid : ∀ p ∈ mid, p.all plainChar)
    (hplainPost : ∀ p ∈ post, p.all plainChar)
    (hpre : ∀ p ∈ pre, isBulletPara p = false)
    (hpost : ∀ p ∈ post, isBulletPara p = false)
    (hhead : ∃ p, mid.head? = some p ∧ isBulletPara p = true)
    (hlast : ∃ p, mid.getLast? = some p ∧ isBulletPara p = true) :
    ulWrap ((pre.map renderPara).flatten ++
            ((mid.map renderPara).flatten ++ (post.map renderPara).flatten)) =
      (pre.map renderPara).flatten ++
        ('<' :: 'u' :: 'l' :: '>' ::
          ((mid.map renderPara).flatten ++
            ('<' :: '/' :: 'u' :: 'l' :: '>' :: (post.map renderPara).flatten))) := by
  rw [ulWrap_renderPara_nonbullet pre _ hplainPre hpre]
  congr 1
  obtain ⟨p, hp, hb⟩ := hhead
  cases mid with
  | nil => exact absurd hp (by simp)
  | cons p0 rest =>
    have hp0 : p0 = p := by simpa using hp
    subst hp0
    cases p0 with
    | nil => exact absurd hb (by simp [isBulletPara])
    | cons c r =>
      have hcb : bulletClass c = true := by simpa [isBulletPara] using hb
      have hmid := slc_renderPara_mid ((c :: r) :: rest) ((post.map renderPara).flatten)
        hplainMid hlast (slc_renderPara_post post hplainPost hpost)
      simp only [List.map_cons, List.flatten_cons, List.append_assoc] at hmid ⊢
      rw [renderPara_liform hcb] at hmid ⊢
      rw [ulWrap_match hmid, ulWrap_renderPara_only post hplainPost hpost]
      simp [renderPara, hcb, List.append_assoc]

theorem boldReplace_no_star (l : List Char) (h : ∀ c ∈ l, c ≠ '*') :
    boldReplace l = l := by
  induction l with
  | nil => rfl
  | cons c rest ih =>
    have hc := h c (List.mem_cons_self c rest)
    rw [boldReplace_cons (fun r h1 _ => hc h1),
        ih (fun x hx => h x (List.mem_cons_of_mem c hx))]

theorem contains_pipe_false {l : List Char} (h : ∀ c ∈ l, c ≠ '|') :
    l.contains '|' = false := by
  induction l with
  | nil => rfl
  | cons c rest ih =>
    have hc := h c (List.mem_cons_self c rest)
    have ih2 := ih (fun x hx => h x (List.mem_cons_of_mem c hx))
    simp only [List.contains_cons, Bool.or_eq_false_iff]
    exact ⟨by simpa using fun he => hc he.symm, ih2⟩

theorem renderPara_chars {p : List Char} (hplain : p.all plainChar) :
    ∀ c ∈ renderPara p, c ≠ '*' ∧ c ≠ '|' := by
  intro c hc
  cases p with
  | nil =>
    simp only [renderPara, List.mem_cons, List.not_mem_nil, or_false] at hc
    rcases hc with rfl | rfl | rfl | rfl | rfl | rfl | rfl
    all_goals exact ⟨by decide, by decide⟩
  | cons c0 r =>
    have hr : r.all plainChar := by
      simp only [List.all_cons, Bool.and_eq_true] at hplain
      exact hplain.2
    by_cases hb : bulletClass c0
    · simp only [renderPara, if_pos hb, List.append_assoc, List.mem_append,
        List.mem_cons, List.not_mem_nil, or_false] at hc
      rcases hc with (rfl | rfl | rfl | rfl) | hc | (rfl | rfl | rfl | rfl | rfl)
      case _ => exact ⟨by decide, by decide⟩
      case _ => exact ⟨by decide, by decide⟩
      case _ => exact ⟨by decide, by decide⟩
      case _ => exact ⟨by decide, by decide⟩
      case _ =>
        have hp := plainChar_spec (dropWhile_all_plain hr c hc)
        exact ⟨hp.2.2.2.1, hp.2.2.2.2.1⟩
      all_goals exact ⟨by decide, by decide⟩
    · have hp0 : plainChar c0 = true := by
        simp only [List.all_cons, Bool.and_eq_true] at hplain
        exact hplain.1
      simp only [renderPara, if_neg hb, List.append_assoc, List.mem_append,
        List.mem_cons, List.not_mem_nil, or_false] at hc
      rcases hc with (rfl | rfl | rfl) | hc | (rfl | rfl | rfl | rfl)
      case _ => exact ⟨by decide, by decide⟩
      case _ => exact ⟨by decide, by decide⟩
      case _ => exact ⟨by decide, by decide⟩
      case _ =>
        rcases hc with rfl | hc
        · have hp := plainChar_spec hp0
          exact ⟨hp.2.2.2.1, hp.2.2.2.2.1⟩
        · have hp := plainChar_spec (List.all_eq_true.mp hr c hc)
          exact ⟨hp.2.2.2.1, hp.2.2.2.2.1⟩
      all_goals exact ⟨by decide, by decide⟩

theorem flatten_renderPara_chars (ps : List (List Char))
    (h : ∀ p ∈ ps, p.all plainChar) :
    ∀ c ∈ (ps.map renderPara).flatten, c ≠ '*' ∧ c ≠ '|' := by
  intro c hc
  rw [List.mem_flatten] at hc
  obtain ⟨l, hl, hcl⟩ := hc
  rw [List.mem_map] at hl
  obtain ⟨p, hp, rfl⟩ := hl
  exact renderPara_chars (h p hp) c hcl

theorem plainChar_inert {c : Char} (h : plainChar c = true) :
    c ≠ '&' ∧ c ≠ '<' ∧ c ≠ '>' ∧ c ≠ ' ' := by
  simp only [plainChar, Bool.not_eq_eq_eq_not, Bool.not_true, Bool.or_eq_false_iff,
    decide_eq_false_iff_not] at h
  obtain ⟨⟨⟨⟨⟨⟨⟨⟨⟨h1, h2⟩, h3⟩, h4⟩, h5⟩, h6⟩, h7⟩, h8⟩, h9⟩, h10⟩ := h
  exact ⟨h3, h1, h2, h10⟩

theorem plainChar_no_newline {c : Char} (h : plainChar c = true) : c ≠ '\n' := by
  simp only [plainChar, Bool.not_eq_eq_eq_not, Bool.not_true, Bool.or_eq_false_iff,
    decide_eq_false_iff_not] at h
  obtain ⟨⟨⟨⟨⟨⟨⟨⟨⟨h1, h2⟩, h3⟩, h4⟩, h5⟩, h6⟩, h7⟩, h8⟩, h9⟩, h10⟩ := h
  exact h4

theorem escapeHtmlL_append (a b : List Char) :
    escapeHtmlL (a ++ b) = escapeHtmlL a ++ escapeHtmlL b := by
  simp [escapeHtmlL]

theorem escapeHtmlL_plain_intercalate (ps : List (List Char))
    (h : ∀ p ∈ ps, p.all plainChar) :
    escapeHtmlL (List.intercalate ['\n', '\n'] ps) =
      List.intercalate ['\n', '\n'] ps := by
  induction ps with
  | nil => rfl
  | cons p rest ih =>
    have hp : escapeHtmlL p = p :=
      escapeHtmlL_inert (fun c hc =>
        plainChar_inert (List.all_eq_true.mp (h p (List.mem_cons_self p rest)) c hc))
    cases rest with
    | nil =>
      have h1 : List.intercalate ['\n', '\n'] [p] = p := by simp [List.intercalate]
      rw [h1, hp]
    | cons q rest2 =>
      have hstep : List.intercalate ['\n', '\n'] (p :: q :: rest2) =
          p ++ '\n' :: '\n' :: List.intercalate ['\n', '\n'] (q :: rest2) := by
        simp [List.intercalate, List.intersperse]
      rw [hstep, escapeHtmlL_append, hp,
          show ('\n' :: '\n' :: List.intercalate ['\n', '\n'] (q :: rest2)) =
            ['\n', '\n'] ++ List.intercalate ['\n', '\n'] (q :: rest2) from rfl,
          escapeHtmlL_append,
          ih (fun x hx => h x (List.mem_cons_of_mem p hx))]
      rfl

theorem paragraphStage_plain (ps : List (List Char)) (hne : ps ≠ [])
    (h : ∀ p ∈ ps, p.all plainChar) :
    paragraphStage (List.intercalate ['\n', '\n'] ps) =
      (ps.map (fun p => '<' :: 'p' :: '>' :: (p ++ ['<', '/', 'p', '>']))).flatten := by
  rw [paragraphStage, splitOnNN_intercalate ps hne
      (fun p hp c hc => plainChar_no_newline (List.all_eq_true.mp (h p hp) c hc))]
  congr 1
  apply List.map_congr_left
  intro p hp
  rw [wrapParagraph, replaceNewline_id
      (fun c hc => plainChar_no_newline (List.all_eq_true.mp (h p hp) c hc))]
  simp

/-- C7 (amended): on a document of single-line paragraphs of inert
characters (no HTML-escaped character, no line terminator, no `|`, no `*`),
every paragraph prefixed by a character of the source's class `[-â€¢]`
(dash or one of the three mojibake characters of the mis-encoded bullet) is
reclassified as a list item whose content drops the marker and the
whitespace after it, and ALL list items of the message end up in exactly
one `<ul>` block stretching from the first item to the last one — adjacent
items are coalesced in order, and any non-bullet paragraph lying between
two items is swallowed into the same single list block; paragraphs before
the first item and after the last stay outside. -/
theorem formatCore_bullet_single_list
    (pre mid post : List (List Char))
    (hplain : ∀ p ∈ pre ++ mid ++ post, p.all plainChar)
    (hpre : ∀ p ∈ pre, isBulletPara p = false)
    (hpost : ∀ p ∈ post, isBulletPara p = false)
    (hhead : ∃ p, mid.head? = some p ∧ isBulletPara p = true)
    (hlast : ∃ p, mid.getLast? = some p ∧ isBulletPara p = true) :
    formatCore (List.intercalate ['\n', '\n'] (pre ++ mid ++ post)) =
      (pre.map renderPara).flatten ++
        ('<' :: 'u' :: 'l' :: '>' ::
          ((mid.map renderPara).flatten ++
            ('<' :: '/' :: 'u' :: 'l' :: '>' :: (post.map renderPara).flatten))) := by
  have hplainPre : ∀ p ∈ pre, p.all plainChar :=
    fun p hp => hplain p (by simp [hp])
  have hplainMid : ∀ p ∈ mid, p.all plainChar :=
    fun p hp => hplain p (by simp [hp])
  have hplainPost : ∀ p ∈ post, p.all plainChar :=
    fun p hp => hplain p (by simp [hp])
  have hne : pre ++ mid ++ post ≠ [] := by
    obtain ⟨p, hp, -⟩ := hhead
    intro hnil
    rw [List.append_eq_nil, List.append_eq_nil] at hnil
    rw [hnil.1.2] at hp
    exact Option.noConfusion hp
  have hsplit : ((pre ++ mid ++ post).map renderPara).flatten =
      (pre.map renderPara).flatten ++
        ((mid.map renderPara).flatten ++ (post.map renderPara).flatten) := by
    simp [List.map_append, List.flatten_append]
  have hul := ulWrap_blocks pre mid post hplainPre hplainMid hplainPost
    hpre hpost hhead hlast
  have hchars : ∀ c ∈ (pre.map renderPara).flatten ++
      ('<' :: 'u' :: 'l' :: '>' ::
        ((mid.map renderPara).flatten ++
          ('<' :: '/' :: 'u' :: 'l' :: '>' :: (post.map renderPara).flatten))),
      c ≠ '*' ∧ c ≠ '|' := by
    intro c hc
    simp only [List.mem_append, List.mem_cons] at hc
    rcases hc with h1 | rfl | rfl | rfl | rfl | h1 | rfl | rfl | rfl | rfl | rfl | h1
    · exact flatten_renderPara_chars pre hplainPre c h1
    · exact ⟨by decide, by decide⟩
    · exact ⟨by decide, by decide⟩
    · exact ⟨by decide, by decide⟩
    · exact ⟨by decide, by decide⟩
    · exact flatten_renderPara_chars mid hplainMid c h1
    · exact ⟨by decide, by decide⟩
    · exact ⟨by decide, by decide⟩
    · exact ⟨by decide, by decide⟩
    · exact ⟨by decide, by decide⟩
    · exact ⟨by decide, by decide⟩
    · exact flatten_renderPara_chars post hplainPost c h1
  simp only [formatCore]
  rw [escapeHtmlL_plain_intercalate _ hplain,
      paragraphStage_plain _ hne hplain,
      bulletReplace_blocks _ hplain,
      hsplit, hul,
      boldReplace_no_star _ (fun c hc => (hchars c hc).1),
      contains_pipe_false (fun c hc => (hchars c hc).2)]
  simp

/-- Witness for C7's amended theorem: at the concrete input
`"- a\n\n- b\n\n- c"` (three bullet paragraphs, no pre/post paragraphs) the
formatter produces exactly one list block with the three items in order. -/
theorem formatCore_bullet_single_list_witness :
    (formatCore (List.intercalate ['\n', '\n']
        (([] : List (List Char)) ++
          [['-', ' ', 'a'], ['-', ' ', 'b'], ['-', ' ', 'c']] ++ [])) =
      (([] : List (List Char)).map renderPara).flatten ++
        ('<' :: 'u' :: 'l' :: '>' ::
          (([['-', ' ', 'a'], ['-', ' ', 'b'], ['-', ' ', 'c']].map renderPara).flatten ++
            ('<' :: '/' :: 'u' :: 'l' :: '>' ::
              (([] : List (List Char)).map renderPara).flatten)))) ∧
    formatMessage "- a\n\n- b\n\n- c" = "<ul><li>a</li><li>b</li><li>c</li></ul>" :=
  ⟨formatCore_bullet_single_list [] [['-', ' ', 'a'], ['-', ' ', 'b'], ['-', ' ', 'c']] []
      (by decide) (by decide) (by decide)
      ⟨['-', ' ', 'a'], rfl, by decide⟩ ⟨['-', ' ', 'c'], rfl, by decide⟩,
   rfl⟩

/-! ### C6: HTML-escape safety

The markup the formatter can emit: seventeen tags and four entities.  The
invariant `Safe` says a character list is built from these fragments and
from characters other than `<`, `>`, `&`; it is proved to hold of every
`formatMessage` output, stage by stage. -/

def tagList : List (List Char) :=
  [['<', 'p', '>'], ['<', '/', 'p', '>'], ['<', 'b', 'r', '>'],
   ['<', 'l', 'i', '>'], ['<', '/', 'l', 'i', '>'],
   ['<', 'u', 'l', '>'], ['<', '/', 'u', 'l', '>'],
   ['<', 's', 't', 'r', 'o', 'n', 'g', '>'], ['<', '/', 's', 't', 'r', 'o', 'n', 'g', '>'],
   ['<', 't', 'a', 'b', 'l', 'e', '>'], ['<', '/', 't', 'a', 'b', 'l', 'e', '>'],
   ['<', 't', 'r', '>'], ['<', '/', 't', 'r', '>'], ['<', 't', 'h', '>'],
   ['<', '/', 't', 'h', '>'], ['<', 't', 'd', '>'], ['<', '/', 't', 'd', '>']]

def entList : List (List Char) :=
  [['&', 'a', 'm', 'p', ';'], ['&', 'l', 't', ';'], ['&', 'g', 't', ';'],
   ['&', 'n', 'b', 's', 'p', ';']]

def tokenList : List (List Char) := tagList ++ entList

inductive Safe : List Char → Prop where
  | nil : Safe []
  | chr {c : Char} {l : List Char} : c ≠ '<' → c ≠ '>' → c ≠ '&' → Safe l → Safe (c :: l)
  | tok {t l : List Char} : t ∈ tokenList → Safe l → Safe (t ++ l)

theorem Safe_inv_p {l : List Char} (h : Safe ('<' :: 'p' :: '>' :: l)) : Safe l := by
  generalize hm : '<' :: 'p' :: '>' :: l = m at h
  cases h with
  | nil => exact absurd hm (by simp)
  | chr h1 h2 h3 hs =>
    injection hm with a b
    exact absurd a.symm h1
  | tok hmem hs =>
    fin_cases hmem <;> simp_all [tokenList, tagList, entList]

theorem Safe_inv_chr {c : Char} {l : List Char} (h1 : c ≠ '<') (h2 : c ≠ '&')
    (h : Safe (c :: l)) : Safe l := by
  generalize hm : c :: l = m at h
  cases h with
  | nil => exact absurd hm (by simp)
  | chr _ _ _ hs =>
    injection hm with a b
    exact b.symm ▸ hs
  | tok hmem hs =>
    fin_cases hmem <;> simp_all [tokenList, tagList, entList]

/-- Case view of a `Safe` derivation with explicit equations. -/
theorem safe_cases {l : List Char} (h : Safe l) :
    l = [] ∨
    (∃ c rest, l = c :: rest ∧ c ≠ '<' ∧ c ≠ '>' ∧ c ≠ '&' ∧ Safe rest) ∨
    (∃ t rest, t ∈ tokenList ∧ l = t ++ rest ∧ Safe rest) := by
  cases h with
  | nil => exact Or.inl rfl
  | chr h1 h2 h3 hs => exact Or.inr (Or.inl ⟨_, _, rfl, h1, h2, h3, hs⟩)
  | tok hmem hs => exact Or.inr (Or.inr ⟨_, _, hmem, rfl, hs⟩)

theorem Safe_append {a b : List Char} (ha : Safe a) (hb : Safe b) : Safe (a ++ b) := by
  induction ha with
  | nil => exact hb
  | chr h1 h2 h3 _ ih => exact Safe.chr h1 h2 h3 ih
  | tok hmem _ ih =>
    rw [List.append_assoc]
    exact Safe.tok hmem ih

theorem token_ne_nil : ∀ t ∈ tokenList, t ≠ [] := by decide

theorem token_chars_plain : ∀ t ∈ tokenList, ∀ c ∈ t,
    lineTerm c = false ∧ jsWhitespace c = false ∧ c ≠ '*' ∧ c ≠ '|' ∧ c ≠ '$' ∧ c ≠ '\n' := by
  decide

theorem token_tail_no_lt : ∀ t ∈ tokenList, ∀ c ∈ t.tail, c ≠ '<' := by decide

theorem token_destruct {t : List Char} (h : t ∈ tokenList) :
    ∃ th tt, t = th :: tt ∧ (th = '<' ∨ th = '&') := by
  fin_cases h <;>
    first
    | exact ⟨'<', _, rfl, Or.inl rfl⟩
    | exact ⟨'&', _, rfl, Or.inr rfl⟩

theorem Safe_inv_pclose {l : List Char} (h : Safe ('<' :: '/' :: 'p' :: '>' :: l)) : Safe l := by
  generalize hm : '<' :: '/' :: 'p' :: '>' :: l = m at h
  cases h with
  | nil => exact absurd hm (by simp)
  | chr h1 h2 h3 hs =>
    injection hm with a b
    exact absurd a.symm h1
  | tok hmem hs =>
    fin_cases hmem <;> simp_all [tokenList, tagList, entList]

theorem Safe_inv_br {l : List Char} (h : Safe ('<' :: 'b' :: 'r' :: '>' :: l)) : Safe l := by
  generalize hm : '<' :: 'b' :: 'r' :: '>' :: l = m at h
  cases h with
  | nil => exact absurd hm (by simp)
  | chr h1 h2 h3 hs =>
    injection hm with a b
    exact absurd a.symm h1
  | tok hmem hs =>
    fin_cases hmem <;> simp_all [tokenList, tagList, entList]

theorem Safe_inv_li {l : List Char} (h : Safe ('<' :: 'l' :: 'i' :: '>' :: l)) : Safe l := by
  generalize hm : '<' :: 'l' :: 'i' :: '>' :: l = m at h
  cases h with
  | nil => exact absurd hm (by simp)
  | chr h1 h2 h3 hs =>
    injection hm with a b
    exact absurd a.symm h1
  | tok hmem hs =>
    fin_cases hmem <;> simp_all [tokenList, tagList, entList]

theorem Safe_inv_liclose {l : List Char} (h : Safe ('<' :: '/' :: 'l' :: 'i' :: '>' :: l)) :
    Safe l := by
  generalize hm : '<' :: '/' :: 'l' :: 'i' :: '>' :: l = m at h
  cases h with
  | nil => exact absurd hm (by simp)
  | chr h1 h2 h3 hs =>
    injection hm with a b
    exact absurd a.symm h1
  | tok hmem hs =>
    fin_cases hmem <;> simp_all [tokenList, tagList, entList]

/-- Stage 1: the escape stage emits only entities and harmless characters. -/
theorem escapeHtmlL_safe (l : List Char) : Safe (escapeHtmlL l) := by
  induction l with
  | nil => exact Safe.nil
  | cons c rest ih =>
    have hsplit : escapeHtmlL (c :: rest) = escapeChar c ++ escapeHtmlL rest := by
      simp [escapeHtmlL]
    rw [hsplit]
    simp only [escapeChar]
    split_ifs with h1 h2 h3 h4
    · exact Safe.tok (by decide) ih
    · exact Safe.tok (by decide) ih
    · exact Safe.tok (by decide) ih
    · exact Safe.tok (by decide) ih
    · exact Safe.chr h2 h3 h1 ih

theorem safe_token {t : List Char} (h : t ∈ tokenList) : Safe t := by
  have h2 := Safe.tok h Safe.nil
  simpa using h2

/-! Stage 2: the paragraph stage. -/

theorem replaceNewline_cons_ne {c : Char} {l : List Char} (h : c ≠ '\n') :
    replaceNewline (c :: l) = c :: replaceNewline l := by
  rw [replaceNewline.eq_3 c l (fun h1 => h h1)]

theorem replaceNewline_append_no_nl (cs l : List Char) (h : ∀ c ∈ cs, c ≠ '\n') :
    replaceNewline (cs ++ l) = cs ++ replaceNewline l := by
  induction cs with
  | nil => rfl
  | cons c cs' ih =>
    rw [List.cons_append, replaceNewline_cons_ne (h c (List.mem_cons_self c cs')),
        ih (fun x hx => h x (List.mem_cons_of_mem c hx))]
    rfl

theorem replaceNewline_safe {l : List Char} (h : Safe l) : Safe (replaceNewline l) := by
  induction h with
  | nil => exact Safe.nil
  | chr h1 h2 h3 hs ih =>
    rename_i c rest
    by_cases hc : c = '\n'
    · subst hc
      rw [show replaceNewline ('\n' :: rest) = '<' :: 'b' :: 'r' :: '>' :: replaceNewline rest
        from rfl]
      exact Safe.tok (show ['<', 'b', 'r', '>'] ∈ tokenList by decide) ih
    · rw [replaceNewline_cons_ne hc]
      exact Safe.chr h1 h2 h3 ih
  | tok hmem hs ih =>
    rename_i t rest
    rw [replaceNewline_append_no_nl t _ (fun c hc => (token_chars_plain t hmem c hc).2.2.2.2.2)]
    exact Safe.tok hmem ih

theorem splitOnNN_ne_nil (l : List Char) : splitOnNN l ≠ [] := by
  induction l using splitOnNN.induct with
  | case1 => simp [splitOnNN]
  | case2 rest ih => simp [splitOnNN]
  | case3 c rest hne ih =>
    rw [splitOnNN.eq_3 c rest hne]
    cases hr : splitOnNN rest <;> simp
  | case4 c rest hne ih =>
    rw [splitOnNN.eq_3 c rest hne]
    cases hr : splitOnNN rest <;> simp

theorem splitOnNN_cons_step (c : Char) (rest : List Char)
    (hne : ∀ r, c = '\n' → rest = '\n' :: r → False) :
    ∃ p ps, splitOnNN rest = p :: ps ∧ splitOnNN (c :: rest) = (c :: p) :: ps := by
  cases hr : splitOnNN rest with
  | nil => exact absurd hr (splitOnNN_ne_nil rest)
  | cons p ps =>
    refine ⟨p, ps, rfl, ?_⟩
    rw [splitOnNN.eq_3 c rest hne, hr]

theorem splitOnNN_append_no_nl (cs l : List Char) (h : ∀ c ∈ cs, c ≠ '\n') :
    ∃ p ps, splitOnNN l = p :: ps ∧ splitOnNN (cs ++ l) = (cs ++ p) :: ps := by
  induction cs with
  | nil =>
    cases hr : splitOnNN l with
    | nil => exact absurd hr (splitOnNN_ne_nil l)
    | cons p ps => exact ⟨p, ps, rfl, by simpa using hr⟩
  | cons c cs' ih =>
    obtain ⟨p, ps, hl, hcs⟩ := ih (fun x hx => h x (List.mem_cons_of_mem c hx))
    have hne : ∀ r, c = '\n' → cs' ++ l = '\n' :: r → False :=
      fun r h1 _ => h c (List.mem_cons_self c cs') h1
    refine ⟨p, ps, hl, ?_⟩
    rw [List.cons_append, splitOnNN.eq_3 c _ hne, hcs]
    rfl

theorem splitOnNN_safe : ∀ n l, l.length ≤ n → Safe l → ∀ p ∈ splitOnNN l, Safe p := by
  intro n
  induction n using Nat.strong_induction_on with
  | _ n ih =>
    intro l hl hs p hp
    rcases safe_cases hs with rfl | ⟨c, rest, rfl, h1, h2, h3, hrest⟩ | ⟨t, rest, hmem, rfl, hrest⟩
    · simp [splitOnNN] at hp
      subst hp
      exact Safe.nil
    · have hlr : rest.length < n := by
        simp only [List.length_cons] at hl
        omega
      have hsub : ∀ q ∈ splitOnNN rest, Safe q :=
        fun q hq => ih rest.length hlr rest (le_refl _) hrest q hq
      by_cases hc : c = '\n'
      · subst hc
        rcases safe_cases hrest with rfl | ⟨c2, rest2, rfl, g1, g2, g3, hrest2⟩ |
            ⟨t2, rest2, hmem2, rfl, hrest2⟩
        · rw [show splitOnNN ['\n'] = [['\n']] from rfl] at hp
          simp at hp
          subst hp
          exact Safe.chr (by decide) (by decide) (by decide) Safe.nil
        · by_cases hc2 : c2 = '\n'
          · subst hc2
            rw [show splitOnNN ('\n' :: '\n' :: rest2) = [] :: splitOnNN rest2 from rfl] at hp
            rcases List.mem_cons.mp hp with rfl | hp2
            · exact Safe.nil
            · have hlr2 : rest2.length < n := by
                simp only [List.length_cons] at hl
                omega
              exact ih rest2.length hlr2 rest2 (le_refl _) hrest2 p hp2
          · have hne : ∀ r, ('\n' : Char) = '\n' → (c2 :: rest2) = '\n' :: r → False := by
              intro r _ hr
              injection hr with ha _
              exact hc2 ha
            obtain ⟨p', ps', hpl, hcons⟩ := splitOnNN_cons_step '\n' (c2 :: rest2) hne
            rw [hcons] at hp
            rcases List.mem_cons.mp hp with rfl | hp2
            · exact Safe.chr h1 h2 h3
                (hsub p' (by rw [hpl]; exact List.mem_cons_self p' ps'))
            · exact hsub p (by rw [hpl]; exact List.mem_cons_of_mem p' hp2)
        · have hne : ∀ r, ('\n' : Char) = '\n' → t2 ++ rest2 = '\n' :: r → False := by
            intro r _ hr
            obtain ⟨th, tt, rfl, hth⟩ := token_destruct hmem2
            rw [List.cons_append] at hr
            injection hr with ha _
            rcases hth with rfl | rfl <;> exact absurd ha (by decide)
          obtain ⟨p', ps', hpl, hcons⟩ := splitOnNN_cons_step '\n' (t2 ++ rest2) hne
          rw [hcons] at hp
          rcases List.mem_cons.mp hp with rfl | hp2
          · exact Safe.chr h1 h2 h3
              (hsub p' (by rw [hpl]; exact List.mem_cons_self p' ps'))
          · exact hsub p (by rw [hpl]; exact List.mem_cons_of_mem p' hp2)
      · have hne : ∀ r, c = '\n' → rest = '\n' :: r → False := fun r h' _ => hc h'
        obtain ⟨p', ps', hpl, hcons⟩ := splitOnNN_cons_step c rest hne
        rw [hcons] at hp
        rcases List.mem_cons.mp hp with rfl | hp2
        · exact Safe.chr h1 h2 h3
            (hsub p' (by rw [hpl]; exact List.mem_cons_self p' ps'))
        · exact hsub p (by rw [hpl]; exact List.mem_cons_of_mem p' hp2)
    · have hnl : ∀ c ∈ t, c ≠ '\n' := fun c hc => (token_chars_plain t hmem c hc).2.2.2.2.2
      obtain ⟨p', ps', hpl, hcons⟩ := splitOnNN_append_no_nl t rest hnl
      rw [hcons] at hp
      have htlen : t.length ≠ 0 :=
        fun h0 => token_ne_nil t hmem (List.eq_nil_of_length_eq_zero h0)
      have hlr : rest.length < n := by
        rw [List.length_append] at hl
        omega
      have hsub : ∀ q ∈ splitOnNN rest, Safe q :=
        fun q hq => ih rest.length hlr rest (le_refl _) hrest q hq
      rcases List.mem_cons.mp hp with rfl | hp2
      · exact Safe.tok hmem (hsub p' (by rw [hpl]; exact List.mem_cons_self p' ps'))
      · exact hsub p (by rw [hpl]; exact List.mem_cons_of_mem p' hp2)

theorem flatten_safe {ps : List (List Char)} (h : ∀ p ∈ ps, Safe p) : Safe ps.flatten := by
  induction ps with
  | nil => exact Safe.nil
  | cons p rest ih =>
    rw [List.flatten_cons]
    exact Safe_append (h p (List.mem_cons_self p rest))
      (ih fun q hq => h q (List.mem_cons_of_mem p hq))

theorem wrapParagraph_safe {p : List Char} (h : Safe p) : Safe (wrapParagraph p) := by
  unfold wrapParagraph
  exact Safe_append
    (Safe_append (safe_token (by decide)) (replaceNewline_safe h))
    (safe_token (by decide))

theorem paragraphStage_safe {l : List Char} (h : Safe l) : Safe (paragraphStage l) := by
  unfold paragraphStage
  apply flatten_safe
  intro q hq
  obtain ⟨p, hp, rfl⟩ := List.mem_map.mp hq
  exact wrapParagraph_safe (splitOnNN_safe l.length l (le_refl _) h p hp)

/-! Stage 3: the bullet-item replacement. -/

theorem findParaClose_step_ne (c : Char) (rest : List Char) (h1 : c ≠ '<')
    (h2 : lineTerm c = false) :
    findParaClose (c :: rest) =
      match findParaClose rest with
      | some (ct, af) => some (c :: ct, af)
      | none => none := by
  rw [findParaClose.eq_2 c rest (fun r hc _ => h1 hc), if_neg (by simp [h2])]

theorem findParaClose_step_lt (rest : List Char)
    (hne : ∀ r, rest = '/' :: 'p' :: '>' :: r → False) :
    findParaClose ('<' :: rest) =
      match findParaClose rest with
      | some (ct, af) => some ('<' :: ct, af)
      | none => none := by
  rw [findParaClose.eq_2 '<' rest (fun r _ h => hne r h), if_neg (by decide)]

theorem findParaClose_token {t : List Char} (hmem : t ∈ tokenList)
    (hne : t ≠ ['<', '/', 'p', '>']) (rest : List Char) :
    findParaClose (t ++ rest) =
      match findParaClose rest with
      | some (ct, af) => some (t ++ ct, af)
      | none => none := by
  cases hr : findParaClose rest with
  | none =>
    fin_cases hmem <;>
      first
      | exact absurd rfl hne
      | simp [findParaClose_step_lt, findParaClose_step_ne, lineTerm, hr]
  | some pr =>
    obtain ⟨ct, af⟩ := pr
    fin_cases hmem <;>
      first
      | exact absurd rfl hne
      | simp [findParaClose_step_lt, findParaClose_step_ne, lineTerm, hr]

theorem findParaClose_safe : ∀ n l, l.length ≤ n → Safe l →
    ∀ content after, findParaClose l = some (content, after) →
      Safe content ∧ Safe after := by
  intro n
  induction n using Nat.strong_induction_on with
  | _ n ih =>
    intro l hl hs content after heq
    rcases safe_cases hs with rfl | ⟨c, rest, rfl, h1, h2, h3, hrest⟩ | ⟨t, rest, hmem, rfl, hrest⟩
    · exact absurd heq (by simp [findParaClose])
    · by_cases hlt : lineTerm c = true
      · rw [findParaClose.eq_2 c rest (fun r hc _ => h1 hc), if_pos (by simp [hlt])] at heq
        cases heq
      · rw [findParaClose_step_ne c rest h1 (by simpa using hlt)] at heq
        cases hr : findParaClose rest with
        | none =>
          rw [hr] at heq
          cases heq
        | some pr =>
          obtain ⟨ct, af⟩ := pr
          rw [hr] at heq
          simp only [Option.some.injEq, Prod.mk.injEq] at heq
          obtain ⟨hct, haf⟩ := heq
          subst hct
          subst haf
          have hlr : rest.length < n := by
            simp only [List.length_cons] at hl
            omega
          obtain ⟨hsc, hsa⟩ := ih rest.length hlr rest (le_refl _) hrest ct af hr
          exact ⟨Safe.chr h1 h2 h3 hsc, hsa⟩
    · by_cases ht : t = ['<', '/', 'p', '>']
      · subst ht
        rw [show (['<', '/', 'p', '>'] : List Char) ++ rest = '<' :: '/' :: 'p' :: '>' :: rest
              from rfl, findParaClose.eq_1] at heq
        simp only [Option.some.injEq, Prod.mk.injEq] at heq
        obtain ⟨hct, haf⟩ := heq
        subst hct
        subst haf
        exact ⟨Safe.nil, hrest⟩
      · rw [findParaClose_token hmem ht rest] at heq
        cases hr : findParaClose rest with
        | none =>
          rw [hr] at heq
          cases heq
        | some pr =>
          obtain ⟨ct, af⟩ := pr
          rw [hr] at heq
          simp only [Option.some.injEq, Prod.mk.injEq] at heq
          obtain ⟨hct, haf⟩ := heq
          subst hct
          subst haf
          have htlen : t.length ≠ 0 :=
            fun h0 => token_ne_nil t hmem (List.eq_nil_of_length_eq_zero h0)
          have hlr : rest.length < n := by
            rw [List.length_append] at hl
            omega
          obtain ⟨hsc, hsa⟩ := ih rest.length hlr rest (le_refl _) hrest ct af hr
          exact ⟨Safe.tok hmem hsc, hsa⟩

theorem safe_dropWhile_ws {l : List Char} (h : Safe l) : Safe (l.dropWhile jsWhitespace) := by
  induction h with
  | nil => exact Safe.nil
  | chr h1 h2 h3 hs ih =>
    rename_i c rest
    rw [List.dropWhile_cons]
    by_cases hw : jsWhitespace c
    · rw [if_pos (by simp [hw])]
      exact ih
    · rw [if_neg (by simp [hw])]
      exact Safe.chr h1 h2 h3 hs
  | tok hmem hs ih =>
    rename_i t rest
    obtain ⟨th, tt, rfl, hth⟩ := token_destruct hmem
    rw [List.cons_append, List.dropWhile_cons,
        if_neg (by rcases hth with rfl | rfl <;> simp [jsWhitespace])]
    exact Safe.tok hmem hs

theorem tryBullet_ne_p (x : Char) (rest : List Char) (h : x ≠ 'p') :
    tryBullet ('<' :: x :: rest) = none := by
  rw [tryBullet.eq_def]
  split
  · rename_i c2 r heqm
    injection heqm with _ h2
    injection h2 with h3 _
    exact absurd h3 h
  · rfl

theorem bulletReplace_p_step (r : List Char) (h : tryBullet ('<' :: 'p' :: '>' :: r) = none) :
    bulletReplace ('<' :: 'p' :: '>' :: r) = '<' :: 'p' :: '>' :: bulletReplace r := by
  rw [bulletReplace_nomatch h,
      bulletReplace_nomatch (tryBullet_not_lt 'p' _ (by decide)),
      bulletReplace_nomatch (tryBullet_not_lt '>' _ (by decide))]

theorem bulletReplace_skip_lt_token (x : Char) (tt rest : List Char) (hx : x ≠ 'p')
    (hx2 : x ≠ '<') (htt : ∀ c ∈ tt, c ≠ '<') :
    bulletReplace ('<' :: x :: (tt ++ rest)) = '<' :: x :: (tt ++ bulletReplace rest) := by
  rw [bulletReplace_nomatch (tryBullet_ne_p x _ hx),
      show x :: (tt ++ rest) = (x :: tt) ++ rest from rfl,
      bulletReplace_skip_plain (x :: tt) rest ?hplain]
  case hplain =>
    intro c hc
    rcases List.mem_cons.mp hc with rfl | h2
    · exact hx2
    · exact htt c h2
  rfl

theorem bulletReplace_safe : ∀ n l, l.length ≤ n → Safe l → Safe (bulletReplace l) := by
  intro n
  induction n using Nat.strong_induction_on with
  | _ n ih =>
    intro l hl hs
    rcases safe_cases hs with rfl | ⟨c, rest, rfl, h1, h2, h3, hrest⟩ | ⟨t, rest, hmem, rfl, hrest⟩
    · exact Safe.nil
    · rw [bulletReplace_nomatch (tryBullet_not_lt c rest h1)]
      have hlr : rest.length < n := by
        simp only [List.length_cons] at hl
        omega
      exact Safe.chr h1 h2 h3 (ih rest.length hlr rest (le_refl _) hrest)
    · have htlen : t.length ≠ 0 :=
        fun h0 => token_ne_nil t hmem (List.eq_nil_of_length_eq_zero h0)
      have hlr : rest.length < n := by
        rw [List.length_append] at hl
        omega
      by_cases ht : t = ['<', 'p', '>']
      · subst ht
        rw [show (['<', 'p', '>'] : List Char) ++ rest = '<' :: 'p' :: '>' :: rest from rfl]
        rcases safe_cases hrest with rfl | ⟨c, rest2, rfl, g1, g2, g3, hrest2⟩ |
            ⟨t2, rest2, hmem2, rfl, hrest2⟩
        · rw [show bulletReplace ['<', 'p', '>'] = ['<', 'p', '>'] from rfl]
          exact safe_token (by decide)
        · by_cases hb : bulletClass c = true
          · have htb : tryBullet ('<' :: 'p' :: '>' :: c :: rest2) =
                findParaClose (rest2.dropWhile (fun x => jsWhitespace x)) := by
              simp [tryBullet, hb]
            cases hfp : findParaClose (rest2.dropWhile (fun x => jsWhitespace x)) with
            | none =>
              rw [bulletReplace_p_step _ (htb.trans hfp)]
              exact Safe.tok (show ['<', 'p', '>'] ∈ tokenList by decide)
                (ih (c :: rest2).length
                  (by simp only [List.length_append, List.length_cons, List.length_nil] at hl ⊢
                      omega)
                  (c :: rest2) (le_refl _) hrest)
            | some pr =>
              obtain ⟨content, after⟩ := pr
              have hsome : tryBullet ('<' :: 'p' :: '>' :: c :: rest2) =
                  some (content, after) := htb.trans hfp
              rw [bulletReplace_match hsome]
              have hdw : Safe (rest2.dropWhile (fun x => jsWhitespace x)) :=
                safe_dropWhile_ws (Safe_inv_chr g1 g3 hrest)
              obtain ⟨hsc, hsa⟩ := findParaClose_safe
                (rest2.dropWhile (fun x => jsWhitespace x)).length _ (le_refl _) hdw
                content after hfp
              have hla : after.length < n := by
                have := tryBullet_length _ _ _ hsome
                simp only [List.length_append, List.length_cons, List.length_nil] at this hl
                omega
              exact Safe_append
                (Safe_append (Safe_append (safe_token (by decide)) hsc)
                  (safe_token (by decide)))
                (ih after.length hla after (le_refl _) hsa)
          · rw [bulletReplace_p_step _ (tryBullet_no_bullet c rest2 (by simpa using hb))]
            exact Safe.tok (show ['<', 'p', '>'] ∈ tokenList by decide)
              (ih (c :: rest2).length
                (by simp only [List.length_append, List.length_cons, List.length_nil] at hl ⊢
                    omega)
                (c :: rest2) (le_refl _) hrest)
        · obtain ⟨th, tt2, rfl, hth⟩ := token_destruct hmem2
          rw [List.cons_append,
              bulletReplace_p_step _ (tryBullet_no_bullet th _
                (by rcases hth with rfl | rfl <;> decide))]
          rw [show (th :: (tt2 ++ rest2)) = (th :: tt2) ++ rest2 from rfl]
          exact Safe.tok (show ['<', 'p', '>'] ∈ tokenList by decide)
            (ih ((th :: tt2) ++ rest2).length
              (by simp only [List.length_append, List.length_cons, List.length_nil] at hl ⊢
                  omega)
              _ (le_refl _) hrest)
      · have hskip : bulletReplace (t ++ rest) = t ++ bulletReplace rest := by
          fin_cases hmem
          · exact absurd rfl ht
          · exact bulletReplace_skip_lt_token '/' ['p', '>'] rest (by decide) (by decide)
              (by decide)
          · exact bulletReplace_skip_lt_token 'b' ['r', '>'] rest (by decide) (by decide)
              (by decide)
          · exact bulletReplace_skip_lt_token 'l' ['i', '>'] rest (by decide) (by decide)
              (by decide)
          · exact bulletReplace_skip_lt_token '/' ['l', 'i', '>'] rest (by decide) (by decide)
              (by decide)
          · exact bulletReplace_skip_lt_token 'u' ['l', '>'] rest (by decide) (by decide)
              (by decide)
          · exact bulletReplace_skip_lt_token '/' ['u', 'l', '>'] rest (by decide) (by decide)
              (by decide)
          · exact bulletReplace_skip_lt_token 's' ['t', 'r', 'o', 'n', 'g', '>'] rest
              (by decide) (by decide) (by decide)
          · exact bulletReplace_skip_lt_token '/' ['s', 't', 'r', 'o', 'n', 'g', '>'] rest
              (by decide) (by decide) (by decide)
          · exact bulletReplace_skip_lt_token 't' ['a', 'b', 'l', 'e', '>'] rest (by decide)
              (by decide) (by decide)
          · exact bulletReplace_skip_lt_token '/' ['t', 'a', 'b', 'l', 'e', '>'] rest
              (by decide) (by decide) (by decide)
          · exact bulletReplace_skip_lt_token 't' ['r', '>'] rest (by decide) (by decide)
              (by decide)
          · exact bulletReplace_skip_lt_token '/' ['t', 'r', '>'] rest (by decide) (by decide)
              (by decide)
          · exact bulletReplace_skip_lt_token 't' ['h', '>'] rest (by decide) (by decide)
              (by decide)
          · exact bulletReplace_skip_lt_token '/' ['t', 'h', '>'] rest (by decide) (by decide)
              (by decide)
          · exact bulletReplace_skip_lt_token 't' ['d', '>'] rest (by decide) (by decide)
              (by decide)
          · exact bulletReplace_skip_lt_token '/' ['t', 'd', '>'] rest (by decide) (by decide)
              (by decide)
          · exact bulletReplace_skip_plain _ rest (by decide)
          · exact bulletReplace_skip_plain _ rest (by decide)
          · exact bulletReplace_skip_plain _ rest (by decide)
          · exact bulletReplace_skip_plain _ rest (by decide)
        rw [hskip]
        exact Safe.tok hmem (ih rest.length hlr rest (le_refl _) hrest)

/-! Stage 4: list wrapping. -/

theorem slc_token {t : List Char} (hmem : t ∈ tokenList)
    (hne : t ≠ ['<', '/', 'l', 'i', '>']) (rest : List Char) :
    splitAtLastLiClose (t ++ rest) =
      match splitAtLastLiClose rest with
      | some (a, b) => some (t ++ a, b)
      | none => none := by
  cases hr : splitAtLastLiClose rest with
  | none =>
    fin_cases hmem <;>
      first
      | exact absurd rfl hne
      | simp [slc_step, lineTerm, hr]
  | some pr =>
    obtain ⟨a, b⟩ := pr
    fin_cases hmem <;>
      first
      | exact absurd rfl hne
      | simp [slc_step, lineTerm, hr]

theorem slc_safe : ∀ n l, l.length ≤ n → Safe l →
    ∀ a b, splitAtLastLiClose l = some (a, b) → Safe a ∧ Safe b := by
  intro n
  induction n using Nat.strong_induction_on with
  | _ n ih =>
    intro l hl hs a b heq
    rcases safe_cases hs with rfl | ⟨c, rest, rfl, h1, h2, h3, hrest⟩ | ⟨t, rest, hmem, rfl, hrest⟩
    · exact absurd heq (by simp [splitAtLastLiClose])
    · by_cases hlt : lineTerm c = true
      · rw [splitAtLastLiClose.eq_2 c rest (fun r hc _ => h1 hc), if_pos (by simp [hlt])] at heq
        cases heq
      · rw [slc_step (fun r hc _ => h1 hc) (by simpa using hlt)] at heq
        cases hr : splitAtLastLiClose rest with
        | none =>
          rw [hr] at heq
          cases heq
        | some pr =>
          obtain ⟨a', b'⟩ := pr
          rw [hr] at heq
          simp only [Option.some.injEq, Prod.mk.injEq] at heq
          obtain ⟨ha, hb⟩ := heq
          subst ha
          subst hb
          have hlr : rest.length < n := by
            simp only [List.length_cons] at hl
            omega
          obtain ⟨hsa, hsb⟩ := ih rest.length hlr rest (le_refl _) hrest a' b' hr
          exact ⟨Safe.chr h1 h2 h3 hsa, hsb⟩
    · have htlen : t.length ≠ 0 :=
        fun h0 => token_ne_nil t hmem (List.eq_nil_of_length_eq_zero h0)
      have hlr : rest.length < n := by
        rw [List.length_append] at hl
        omega
      by_cases ht : t = ['<', '/', 'l', 'i', '>']
      · subst ht
        rw [show (['<', '/', 'l', 'i', '>'] : List Char) ++ rest =
              '<' :: '/' :: 'l' :: 'i' :: '>' :: rest from rfl,
            splitAtLastLiClose.eq_1] at heq
        cases hr : splitAtLastLiClose rest with
        | none =>
          rw [hr] at heq
          simp only [Option.some.injEq, Prod.mk.injEq] at heq
          obtain ⟨ha, hb⟩ := heq
          subst ha
          subst hb
          exact ⟨safe_token (by decide), hrest⟩
        | some pr =>
          obtain ⟨a', b'⟩ := pr
          rw [hr] at heq
          simp only [Option.some.injEq, Prod.mk.injEq] at heq
          obtain ⟨ha, hb⟩ := heq
          subst ha
          subst hb
          obtain ⟨hsa, hsb⟩ := ih rest.length hlr rest (le_refl _) hrest a' b' hr
          exact ⟨Safe.tok (show ['<', '/', 'l', 'i', '>'] ∈ tokenList by decide) hsa, hsb⟩
      · rw [slc_token hmem ht rest] at heq
        cases hr : splitAtLastLiClose rest with
        | none =>
          rw [hr] at heq
          cases heq
        | some pr =>
          obtain ⟨a', b'⟩ := pr
          rw [hr] at heq
          simp only [Option.some.injEq, Prod.mk.injEq] at heq
          obtain ⟨ha, hb⟩ := heq
          subst ha
          subst hb
          obtain ⟨hsa, hsb⟩ := ih rest.length hlr rest (le_refl _) hrest a' b' hr
          exact ⟨Safe.tok hmem hsa, hsb⟩

theorem ulWrap_li_step {rest : List Char}
    (h : splitAtLastLiClose ('<' :: 'l' :: 'i' :: '>' :: rest) = none) :
    ulWrap ('<' :: 'l' :: 'i' :: '>' :: rest) = '<' :: 'l' :: 'i' :: '>' :: ulWrap rest := by
  rw [ulWrap_nomatch_li h,
      ulWrap_cons (fun r hc _ => absurd hc (by decide)),
      ulWrap_cons (fun r hc _ => absurd hc (by decide)),
      ulWrap_cons (fun r hc _ => absurd hc (by decide))]

theorem ulWrap_skip_lt_token (x : Char) (tt rest : List Char) (hx : x ≠ 'l')
    (hx2 : x ≠ '<') (htt : ∀ c ∈ tt, c ≠ '<') :
    ulWrap ('<' :: x :: (tt ++ rest)) = '<' :: x :: (tt ++ ulWrap rest) := by
  have hne : ∀ r, ('<' : Char) = '<' → x :: (tt ++ rest) = 'l' :: 'i' :: '>' :: r → False := by
    intro r _ hr
    injection hr with ha _
    exact hx ha
  rw [ulWrap_cons hne,
      show x :: (tt ++ rest) = (x :: tt) ++ rest from rfl,
      ulWrap_skip_plain (x :: tt) rest ?hplain]
  case hplain =>
    intro c hc
    rcases List.mem_cons.mp hc with rfl | h2
    · exact hx2
    · exact htt c h2
  rfl

theorem ulWrap_safe : ∀ n l, l.length ≤ n → Safe l → Safe (ulWrap l) := by
  intro n
  induction n using Nat.strong_induction_on with
  | _ n ih =>
    intro l hl hs
    rcases safe_cases hs with rfl | ⟨c, rest, rfl, h1, h2, h3, hrest⟩ | ⟨t, rest, hmem, rfl, hrest⟩
    · exact Safe.nil
    · rw [ulWrap_cons (fun r hc _ => h1 hc)]
      have hlr : rest.length < n := by
        simp only [List.length_cons] at hl
        omega
      exact Safe.chr h1 h2 h3 (ih rest.length hlr rest (le_refl _) hrest)
    · have htlen : t.length ≠ 0 :=
        fun h0 => token_ne_nil t hmem (List.eq_nil_of_length_eq_zero h0)
      have hlr : rest.length < n := by
        rw [List.length_append] at hl
        omega
      by_cases ht : t = ['<', 'l', 'i', '>']
      · subst ht
        rw [show (['<', 'l', 'i', '>'] : List Char) ++ rest = '<' :: 'l' :: 'i' :: '>' :: rest
              from rfl]
        cases hslc : splitAtLastLiClose ('<' :: 'l' :: 'i' :: '>' :: rest) with
        | none =>
          rw [ulWrap_li_step hslc]
          exact Safe.tok (show ['<', 'l', 'i', '>'] ∈ tokenList by decide)
            (ih rest.length hlr rest (le_refl _) hrest)
        | some pr =>
          obtain ⟨span, after⟩ := pr
          rw [ulWrap_match hslc]
          obtain ⟨hspan, hafter⟩ := slc_safe ('<' :: 'l' :: 'i' :: '>' :: rest).length _
            (le_refl _)
            (show Safe ('<' :: 'l' :: 'i' :: '>' :: rest) from hs) span after hslc
          have hla : after.length < n := by
            have := splitAtLastLiClose_length _ _ _ hslc
            simp only [List.length_cons, List.length_append] at this hl
            omega
          exact Safe_append
            (Safe_append (Safe_append (safe_token (by decide)) hspan)
              (safe_token (by decide)))
            (ih after.length hla after (le_refl _) hafter)
      · have hskip : ulWrap (t ++ rest) = t ++ ulWrap rest := by
          fin_cases hmem
          · exact ulWrap_skip_lt_token 'p' ['>'] rest (by decide) (by decide) (by decide)
          · exact ulWrap_skip_lt_token '/' ['p', '>'] rest (by decide) (by decide) (by decide)
          · exact ulWrap_skip_lt_token 'b' ['r', '>'] rest (by decide) (by decide) (by decide)
          · exact absurd rfl ht
          · exact ulWrap_skip_lt_token '/' ['l', 'i', '>'] rest (by decide) (by decide)
              (by decide)
          · exact ulWrap_skip_lt_token 'u' ['l', '>'] rest (by decide) (by decide) (by decide)
          · exact ulWrap_skip_lt_token '/' ['u', 'l', '>'] rest (by decide) (by decide)
              (by decide)
          · exact ulWrap_skip_lt_token 's' ['t', 'r', 'o', 'n', 'g', '>'] rest (by decide)
              (by decide) (by decide)
          · exact ulWrap_skip_lt_token '/' ['s', 't', 'r', 'o', 'n', 'g', '>'] rest (by decide)
              (by decide) (by decide)
          · exact ulWrap_skip_lt_token 't' ['a', 'b', 'l', 'e', '>'] rest (by decide)
              (by decide) (by decide)
          · exact ulWrap_skip_lt_token '/' ['t', 'a', 'b', 'l', 'e', '>'] rest (by decide)
              (by decide) (by decide)
          · exact ulWrap_skip_lt_token 't' ['r', '>'] rest (by decide) (by decide) (by decide)
          · exact ulWrap_skip_lt_token '/' ['t', 'r', '>'] rest (by decide) (by decide)
              (by decide)
          · exact ulWrap_skip_lt_token 't' ['h', '>'] rest (by decide) (by decide) (by decide)
          · exact ulWrap_skip_lt_token '/' ['t', 'h', '>'] rest (by decide) (by decide)
              (by decide)
          · exact ulWrap_skip_lt_token 't' ['d', '>'] rest (by decide) (by decide) (by decide)
          · exact ulWrap_skip_lt_token '/' ['t', 'd', '>'] rest (by decide) (by decide)
              (by decide)
          · exact ulWrap_skip_plain _ rest (by decide)
          · exact ulWrap_skip_plain _ rest (by decide)
          · exact ulWrap_skip_plain _ rest (by decide)
          · exact ulWrap_skip_plain _ rest (by decide)
        rw [hskip]
        exact Safe.tok hmem (ih rest.length hlr rest (le_refl _) hrest)

/-! Stage 5: bold spans. -/

theorem findBoldClose_step (c : Char) (rest : List Char)
    (hne : ∀ r, c = '*' → rest = '*' :: r → False) (hnt : lineTerm c = false) :
    findBoldClose (c :: rest) =
      match findBoldClose rest with
      | some (ct, af) => some (c :: ct, af)
      | none => none := by
  rw [findBoldClose.eq_2 c rest hne, if_neg (by simp [hnt])]

theorem findBoldClose_token {t : List Char} (hmem : t ∈ tokenList) (rest : List Char) :
    findBoldClose (t ++ rest) =
      match findBoldClose rest with
      | some (ct, af) => some (t ++ ct, af)
      | none => none := by
  cases hr : findBoldClose rest with
  | none => fin_cases hmem <;> simp [findBoldClose_step, lineTerm, hr]
  | some pr =>
    obtain ⟨ct, af⟩ := pr
    fin_cases hmem <;> simp [findBoldClose_step, lineTerm, hr]

theorem findBoldClose_safe : ∀ n l, l.length ≤ n → Safe l →
    ∀ content after, findBoldClose l = some (content, after) →
      Safe content ∧ Safe after := by
  intro n
  induction n using Nat.strong_induction_on with
  | _ n ih =>
    intro l hl hs content after heq
    rcases safe_cases hs with rfl | ⟨c, rest, rfl, h1, h2, h3, hrest⟩ | ⟨t, rest, hmem, rfl, hrest⟩
    · exact absurd heq (by simp [findBoldClose])
    · have hlr : rest.length < n := by
        simp only [List.length_cons] at hl
        omega
      have hstep : ∀ hne : (∀ r, c = '*' → rest = '*' :: r → False),
          lineTerm c = false → Safe content ∧ Safe after := by
        intro hne hnt
        rw [findBoldClose_step c rest hne hnt] at heq
        cases hr : findBoldClose rest with
        | none =>
          rw [hr] at heq
          cases heq
        | some pr =>
          obtain ⟨ct, af⟩ := pr
          rw [hr] at heq
          simp only [Option.some.injEq, Prod.mk.injEq] at heq
          obtain ⟨hct, haf⟩ := heq
          subst hct
          subst haf
          obtain ⟨hsc, hsa⟩ := ih rest.length hlr rest (le_refl _) hrest ct af hr
          exact ⟨Safe.chr h1 h2 h3 hsc, hsa⟩
      have hnterm : lineTerm c = false ∨ lineTerm c = true := by
        cases lineTerm c
        · exact Or.inl rfl
        · exact Or.inr rfl
      rcases hnterm with hnt | hnt
      · by_cases hcs : c = '*'
        · subst hcs
          rcases safe_cases hrest with rfl | ⟨c2, rest2, rfl, g1, g2, g3, hrest2⟩ |
              ⟨t2, rest2, hmem2, rfl, hrest2⟩
          · exact hstep (by intro r _ hr; cases hr) (by decide)
          · by_cases hc2 : c2 = '*'
            · subst hc2
              rw [findBoldClose.eq_1] at heq
              simp only [Option.some.injEq, Prod.mk.injEq] at heq
              obtain ⟨hct, haf⟩ := heq
              subst hct
              subst haf
              exact ⟨Safe.nil, Safe_inv_chr g1 g3 hrest⟩
            · exact hstep (by intro r _ hr; injection hr with ha _; exact hc2 ha) (by decide)
          · refine hstep ?_ (by decide)
            intro r _ hr
            obtain ⟨th, tt2, rfl, hth⟩ := token_destruct hmem2
            rw [List.cons_append] at hr
            injection hr with ha _
            rcases hth with rfl | rfl <;> exact absurd ha (by decide)
        · exact hstep (fun r hc _ => hcs hc) hnt
      · rw [findBoldClose.eq_2 c rest ?hne2, if_pos (by simp [hnt])] at heq
        · cases heq
        case hne2 =>
          intro r hc _
          subst hc
          exact absurd hnt (by decide)
    · have htlen : t.length ≠ 0 :=
        fun h0 => token_ne_nil t hmem (List.eq_nil_of_length_eq_zero h0)
      have hlr : rest.length < n := by
        rw [List.length_append] at hl
        omega
      rw [findBoldClose_token hmem rest] at heq
      cases hr : findBoldClose rest with
      | none =>
        rw [hr] at heq
        cases heq
      | some pr =>
        obtain ⟨ct, af⟩ := pr
        rw [hr] at heq
        simp only [Option.some.injEq, Prod.mk.injEq] at heq
        obtain ⟨hct, haf⟩ := heq
        subst hct
        subst haf
        obtain ⟨hsc, hsa⟩ := ih rest.length hlr rest (le_refl _) hrest ct af hr
        exact ⟨Safe.tok hmem hsc, hsa⟩

theorem boldReplace_skip_no_star (cs rest : List Char) (h : ∀ c ∈ cs, c ≠ '*') :
    boldReplace (cs ++ rest) = cs ++ boldReplace rest := by
  induction cs with
  | nil => rfl
  | cons c cs' ih =>
    have hc := h c (List.mem_cons_self c cs')
    rw [List.cons_append, boldReplace_cons (fun r h1 _ => hc h1),
        ih (fun x hx => h x (List.mem_cons_of_mem c hx))]
    rfl

theorem boldReplace_safe : ∀ n l, l.length ≤ n → Safe l → Safe (boldReplace l) := by
  intro n
  induction n using Nat.strong_induction_on with
  | _ n ih =>
    intro l hl hs
    rcases safe_cases hs with rfl | ⟨c, rest, rfl, h1, h2, h3, hrest⟩ | ⟨t, rest, hmem, rfl, hrest⟩
    · exact Safe.nil
    · have hlr : rest.length < n := by
        simp only [List.length_cons] at hl
        omega
      by_cases hcs : c = '*'
      · subst hcs
        rcases safe_cases hrest with rfl | ⟨c2, rest2, rfl, g1, g2, g3, hrest2⟩ |
            ⟨t2, rest2, hmem2, rfl, hrest2⟩
        · rw [show boldReplace ['*'] = ['*'] from rfl]
          exact Safe.chr h1 h2 h3 Safe.nil
        · by_cases hc2 : c2 = '*'
          · subst hc2
            cases hfb : findBoldClose rest2 with
            | none =>
              rw [boldReplace_nomatch_star hfb]
              exact Safe.chr h1 h2 h3
                (ih ('*' :: rest2).length (by simp only [List.length_cons] at hl ⊢; omega)
                  ('*' :: rest2) (le_refl _) hrest)
            | some pr =>
              obtain ⟨ct, af⟩ := pr
              rw [boldReplace_match hfb]
              have hrest2' : Safe rest2 := Safe_inv_chr g1 g3 hrest
              obtain ⟨hsc, hsa⟩ := findBoldClose_safe rest2.length rest2 (le_refl _) hrest2'
                ct af hfb
              have hla : af.length < n := by
                have := findBoldClose_length _ _ _ hfb
                simp only [List.length_cons] at hl
                omega
              exact Safe_append
                (Safe_append (Safe_append (safe_token (by decide)) hsc)
                  (safe_token (by decide)))
                (ih af.length hla af (le_refl _) hsa)
          · rw [boldReplace_cons (fun r hc hr => by injection hr with ha _; exact hc2 ha)]
            exact Safe.chr h1 h2 h3 (ih _ hlr _ (le_refl _) hrest)
        · have hne : ∀ r, ('*' : Char) = '*' → t2 ++ rest2 = '*' :: r → False := by
            intro r _ hr
            obtain ⟨th, tt2, rfl, hth⟩ := token_destruct hmem2
            rw [List.cons_append] at hr
            injection hr with ha _
            rcases hth with rfl | rfl <;> exact absurd ha (by decide)
          rw [boldReplace_cons hne]
          exact Safe.chr h1 h2 h3 (ih _ hlr _ (le_refl _) hrest)
      · rw [boldReplace_cons (fun r hc _ => hcs hc)]
        exact Safe.chr h1 h2 h3 (ih rest.length hlr rest (le_refl _) hrest)
    · have htlen : t.length ≠ 0 :=
        fun h0 => token_ne_nil t hmem (List.eq_nil_of_length_eq_zero h0)
      have hlr : rest.length < n := by
        rw [List.length_append] at hl
        omega
      rw [boldReplace_skip_no_star t rest
        (fun c hc => (token_chars_plain t hmem c hc).2.2.1)]
      exact Safe.tok hmem (ih rest.length hlr rest (le_refl _) hrest)

/-! Stage 6: table conversion. -/

theorem splitOnBr_ne_nil (l : List Char) : splitOnBr l ≠ [] := by
  induction l using splitOnBr.induct with
  | case1 => simp [splitOnBr]
  | case2 rest ih => simp [splitOnBr]
  | case3 c rest hne heq ih =>
    rw [splitOnBr.eq_3 c rest hne, heq]
    simp
  | case4 c rest hne p ps heq ih =>
    rw [splitOnBr.eq_3 c rest hne, heq]
    simp

theorem splitOnBr_cons_step (c : Char) (rest : List Char)
    (hne : ∀ r, c = '<' → rest = 'b' :: 'r' :: '>' :: r → False) :
    ∃ p ps, splitOnBr rest = p :: ps ∧ splitOnBr (c :: rest) = (c :: p) :: ps := by
  cases hr : splitOnBr rest with
  | nil => exact absurd hr (splitOnBr_ne_nil rest)
  | cons p ps =>
    refine ⟨p, ps, rfl, ?_⟩
    rw [splitOnBr.eq_3 c rest hne, hr]

theorem splitOnBr_append_no_lt (cs l : List Char) (h : ∀ c ∈ cs, c ≠ '<') :
    ∃ p ps, splitOnBr l = p :: ps ∧ splitOnBr (cs ++ l) = (cs ++ p) :: ps := by
  induction cs with
  | nil =>
    cases hr : splitOnBr l with
    | nil => exact absurd hr (splitOnBr_ne_nil l)
    | cons p ps => exact ⟨p, ps, rfl, by simpa using hr⟩
  | cons c cs' ih =>
    obtain ⟨p, ps, hl, hcs⟩ := ih (fun x hx => h x (List.mem_cons_of_mem c hx))
    have hne : ∀ r, c = '<' → cs' ++ l = 'b' :: 'r' :: '>' :: r → False :=
      fun r h1 _ => h c (List.mem_cons_self c cs') h1
    refine ⟨p, ps, hl, ?_⟩
    rw [List.cons_append, splitOnBr.eq_3 c _ hne, hcs]
    rfl

theorem splitOnBr_token_lt (x : Char) (tt l : List Char) (hx : x ≠ 'b') (hx2 : x ≠ '<')
    (htt : ∀ c ∈ tt, c ≠ '<') :
    ∃ p ps, splitOnBr l = p :: ps ∧
      splitOnBr ('<' :: x :: (tt ++ l)) = ('<' :: x :: (tt ++ p)) :: ps := by
  obtain ⟨p, ps, hl, hcs⟩ := splitOnBr_append_no_lt (x :: tt) l (by
    intro c hc
    rcases List.mem_cons.mp hc with rfl | h2
    · exact hx2
    · exact htt c h2)
  have hne : ∀ r, ('<' : Char) = '<' → x :: (tt ++ l) = 'b' :: 'r' :: '>' :: r → False := by
    intro r _ hr
    injection hr with ha _
    exact hx ha
  refine ⟨p, ps, hl, ?_⟩
  rw [splitOnBr.eq_3 '<' (x :: (tt ++ l)) hne,
      show x :: (tt ++ l) = (x :: tt) ++ l from rfl, hcs]
  rfl

theorem splitOnBr_token {t : List Char} (hmem : t ∈ tokenList)
    (hne : t ≠ ['<', 'b', 'r', '>']) (l : List Char) :
    ∃ p ps, splitOnBr l = p :: ps ∧ splitOnBr (t ++ l) = (t ++ p) :: ps := by
  fin_cases hmem
  · exact splitOnBr_token_lt 'p' ['>'] l (by decide) (by decide) (by decide)
  · exact splitOnBr_token_lt '/' ['p', '>'] l (by decide) (by decide) (by decide)
  · exact absurd rfl hne
  · exact splitOnBr_token_lt 'l' ['i', '>'] l (by decide) (by decide) (by decide)
  · exact splitOnBr_token_lt '/' ['l', 'i', '>'] l (by decide) (by decide) (by decide)
  · exact splitOnBr_token_lt 'u' ['l', '>'] l (by decide) (by decide) (by decide)
  · exact splitOnBr_token_lt '/' ['u', 'l', '>'] l (by decide) (by decide) (by decide)
  · exact splitOnBr_token_lt 's' ['t', 'r', 'o', 'n', 'g', '>'] l (by decide) (by decide)
      (by decide)
  · exact splitOnBr_token_lt '/' ['s', 't', 'r', 'o', 'n', 'g', '>'] l (by decide) (by decide)
      (by decide)
  · exact splitOnBr_token_lt 't' ['a', 'b', 'l', 'e', '>'] l (by decide) (by decide) (by decide)
  · exact splitOnBr_token_lt '/' ['t', 'a', 'b', 'l', 'e', '>'] l (by decide) (by decide)
      (by decide)
  · exact splitOnBr_token_lt 't' ['r', '>'] l (by decide) (by decide) (by decide)
  · exact splitOnBr_token_lt '/' ['t', 'r', '>'] l (by decide) (by decide) (by decide)
  · exact splitOnBr_token_lt 't' ['h', '>'] l (by decide) (by decide) (by decide)
  · exact splitOnBr_token_lt '/' ['t', 'h', '>'] l (by decide) (by decide) (by decide)
  · exact splitOnBr_token_lt 't' ['d', '>'] l (by decide) (by decide) (by decide)
  · exact splitOnBr_token_lt '/' ['t', 'd', '>'] l (by decide) (by decide) (by decide)
  · exact splitOnBr_append_no_lt _ l (by decide)
  · exact splitOnBr_append_no_lt _ l (by decide)
  · exact splitOnBr_append_no_lt _ l (by decide)
  · exact splitOnBr_append_no_lt _ l (by decide)

theorem splitOnBr_safe : ∀ n l, l.length ≤ n → Safe l → ∀ p ∈ splitOnBr l, Safe p := by
  intro n
  induction n using Nat.strong_induction_on with
  | _ n ih =>
    intro l hl hs p hp
    rcases safe_cases hs with rfl | ⟨c, rest, rfl, h1, h2, h3, hrest⟩ | ⟨t, rest, hmem, rfl, hrest⟩
    · simp [splitOnBr] at hp
      subst hp
      exact Safe.nil
    · have hlr : rest.length < n := by
        simp only [List.length_cons] at hl
        omega
      have hsub : ∀ q ∈ splitOnBr rest, Safe q :=
        fun q hq => ih rest.length hlr rest (le_refl _) hrest q hq
      obtain ⟨p', ps', hpl, hcons⟩ := splitOnBr_cons_step c rest (fun r hc _ => h1 hc)
      rw [hcons] at hp
      rcases List.mem_cons.mp hp with rfl | hp2
      · exact Safe.chr h1 h2 h3 (hsub p' (by rw [hpl]; exact List.mem_cons_self p' ps'))
      · exact hsub p (by rw [hpl]; exact List.mem_cons_of_mem p' hp2)
    · have htlen : t.length ≠ 0 :=
        fun h0 => token_ne_nil t hmem (List.eq_nil_of_length_eq_zero h0)
      have hlr : rest.length < n := by
        rw [List.length_append] at hl
        omega
      have hsub : ∀ q ∈ splitOnBr rest, Safe q :=
        fun q hq => ih rest.length hlr rest (le_refl _) hrest q hq
      by_cases ht : t = ['<', 'b', 'r', '>']
      · subst ht
        rw [show splitOnBr (['<', 'b', 'r', '>'] ++ rest) = [] :: splitOnBr rest from rfl] at hp
        rcases List.mem_cons.mp hp with rfl | hp2
        · exact Safe.nil
        · exact hsub p hp2
      · obtain ⟨p', ps', hpl, hcons⟩ := splitOnBr_token hmem ht rest
        rw [hcons] at hp
        rcases List.mem_cons.mp hp with rfl | hp2
        · exact Safe.tok hmem (hsub p' (by rw [hpl]; exact List.mem_cons_self p' ps'))
        · exact hsub p (by rw [hpl]; exact List.mem_cons_of_mem p' hp2)

theorem splitOnPipe_ne_nil (l : List Char) : splitOnPipe l ≠ [] := by
  induction l using splitOnPipe.induct with
  | case1 => simp [splitOnPipe]
  | case2 rest ih => simp [splitOnPipe]
  | case3 c rest hne heq ih =>
    rw [splitOnPipe.eq_3 c rest hne, heq]
    simp
  | case4 c rest hne p ps heq ih =>
    rw [splitOnPipe.eq_3 c rest hne, heq]
    simp

theorem splitOnPipe_cons_step (c : Char) (rest : List Char) (hne : c ≠ '|') :
    ∃ p ps, splitOnPipe rest = p :: ps ∧ splitOnPipe (c :: rest) = (c :: p) :: ps := by
  cases hr : splitOnPipe rest with
  | nil => exact absurd hr (splitOnPipe_ne_nil rest)
  | cons p ps =>
    refine ⟨p, ps, rfl, ?_⟩
    rw [splitOnPipe.eq_3 c rest (fun h1 => hne h1), hr]

theorem splitOnPipe_append_no_pipe (cs l : List Char) (h : ∀ c ∈ cs, c ≠ '|') :
    ∃ p ps, splitOnPipe l = p :: ps ∧ splitOnPipe (cs ++ l) = (cs ++ p) :: ps := by
  induction cs with
  | nil =>
    cases hr : splitOnPipe l with
    | nil => exact absurd hr (splitOnPipe_ne_nil l)
    | cons p ps => exact ⟨p, ps, rfl, by simpa using hr⟩
  | cons c cs' ih =>
    obtain ⟨p, ps, hl, hcs⟩ := ih (fun x hx => h x (List.mem_cons_of_mem c hx))
    refine ⟨p, ps, hl, ?_⟩
    rw [List.cons_append, splitOnPipe.eq_3 c _ (fun h1 => h c (List.mem_cons_self c cs') h1),
        hcs]
    rfl

theorem splitOnPipe_safe : ∀ n l, l.length ≤ n → Safe l → ∀ p ∈ splitOnPipe l, Safe p := by
  intro n
  induction n using Nat.strong_induction_on with
  | _ n ih =>
    intro l hl hs p hp
    rcases safe_cases hs with rfl | ⟨c, rest, rfl, h1, h2, h3, hrest⟩ | ⟨t, rest, hmem, rfl, hrest⟩
    · simp [splitOnPipe] at hp
      subst hp
      exact Safe.nil
    · have hlr : rest.length < n := by
        simp only [List.length_cons] at hl
        omega
      have hsub : ∀ q ∈ splitOnPipe rest, Safe q :=
        fun q hq => ih rest.length hlr rest (le_refl _) hrest q hq
      by_cases hc : c = '|'
      · subst hc
        rw [show splitOnPipe ('|' :: rest) = [] :: splitOnPipe rest from rfl] at hp
        rcases List.mem_cons.mp hp with rfl | hp2
        · exact Safe.nil
        · exact hsub p hp2
      · obtain ⟨p', ps', hpl, hcons⟩ := splitOnPipe_cons_step c rest hc
        rw [hcons] at hp
        rcases List.mem_cons.mp hp with rfl | hp2
        · exact Safe.chr h1 h2 h3 (hsub p' (by rw [hpl]; exact List.mem_cons_self p' ps'))
        · exact hsub p (by rw [hpl]; exact List.mem_cons_of_mem p' hp2)
    · have htlen : t.length ≠ 0 :=
        fun h0 => token_ne_nil t hmem (List.eq_nil_of_length_eq_zero h0)
      have hlr : rest.length < n := by
        rw [List.length_append] at hl
        omega
      have hsub : ∀ q ∈ splitOnPipe rest, Safe q :=
        fun q hq => ih rest.length hlr rest (le_refl _) hrest q hq
      obtain ⟨p', ps', hpl, hcons⟩ := splitOnPipe_append_no_pipe t rest
        (fun c hc => (token_chars_plain t hmem c hc).2.2.2.1)
      rw [hcons] at hp
      rcases List.mem_cons.mp hp with rfl | hp2
      · exact Safe.tok hmem (hsub p' (by rw [hpl]; exact List.mem_cons_self p' ps'))
      · exact hsub p (by rw [hpl]; exact List.mem_cons_of_mem p' hp2)

theorem safe_of_append_ws : ∀ {l : List Char}, Safe l → ∀ a b, l = a ++ b →
    (∀ c ∈ b, jsWhitespace c = true) → Safe a := by
  intro l h
  induction h with
  | nil =>
    intro a b hab hws
    obtain ⟨rfl, rfl⟩ := List.append_eq_nil.mp hab.symm
    exact Safe.nil
  | chr h1 h2 h3 hs ih =>
    intro a b hab hws
    cases a with
    | nil => exact Safe.nil
    | cons x a' =>
      rw [List.cons_append] at hab
      injection hab with hx hrest2
      subst hx
      exact Safe.chr h1 h2 h3 (ih a' b hrest2 hws)
  | tok hmem hs ih =>
    rename_i t rest
    intro a b hab hws
    rcases List.append_eq_append_iff.mp hab with ⟨t', ht', hrest'⟩ | ⟨a', ha', hb'⟩
    · subst ht'
      exact Safe.tok hmem (ih t' b hrest' hws)
    · cases a' with
      | nil =>
        have : t = a := by simpa using ha'
        subst this
        exact safe_token hmem
      | cons x a2 =>
        have hx1 : x ∈ t := by
          rw [ha']
          exact List.mem_append_right a (List.mem_cons_self x a2)
        have hx2 : x ∈ b := by
          rw [hb']
          exact List.mem_append_left rest (List.mem_cons_self x a2)
        have := (token_chars_plain t hmem x hx1).2.1
        rw [hws x hx2] at this
        cases this

theorem mem_takeWhile_pred {p : Char → Bool} : ∀ {l : List Char} {c : Char},
    c ∈ l.takeWhile p → p c = true := by
  intro l
  induction l with
  | nil =>
    intro c h
    simp [List.takeWhile] at h
  | cons x xs ih =>
    intro c h
    rw [List.takeWhile_cons] at h
    by_cases hx : p x = true
    · rw [if_pos hx] at h
      rcases List.mem_cons.mp h with rfl | h2
      · exact hx
      · exact ih h2
    · rw [if_neg hx] at h
      cases h

theorem trimJs_safe {l : List Char} (h : Safe l) : Safe (trimJs l) := by
  have hsm : Safe (l.dropWhile jsWhitespace) := safe_dropWhile_ws h
  have h1 : (l.dropWhile jsWhitespace).reverse.takeWhile jsWhitespace ++
      (l.dropWhile jsWhitespace).reverse.dropWhile jsWhitespace =
      (l.dropWhile jsWhitespace).reverse :=
    @List.takeWhile_append_dropWhile _ jsWhitespace _
  have hdec : l.dropWhile jsWhitespace =
      ((l.dropWhile jsWhitespace).reverse.dropWhile jsWhitespace).reverse ++
      ((l.dropWhile jsWhitespace).reverse.takeWhile jsWhitespace).reverse := by
    calc l.dropWhile jsWhitespace
        = (l.dropWhile jsWhitespace).reverse.reverse := (List.reverse_reverse _).symm
      _ = ((l.dropWhile jsWhitespace).reverse.takeWhile jsWhitespace ++
            (l.dropWhile jsWhitespace).reverse.dropWhile jsWhitespace).reverse := by rw [h1]
      _ = ((l.dropWhile jsWhitespace).reverse.dropWhile jsWhitespace).reverse ++
            ((l.dropWhile jsWhitespace).reverse.takeWhile jsWhitespace).reverse :=
        List.reverse_append _ _
  exact safe_of_append_ws hsm _ _ hdec (by
    intro c hc
    rw [List.mem_reverse] at hc
    exact mem_takeWhile_pred hc)

theorem safe_of_all_chr {l : List Char} (h : ∀ c ∈ l, c ≠ '<' ∧ c ≠ '>' ∧ c ≠ '&') :
    Safe l := by
  induction l with
  | nil => exact Safe.nil
  | cons c rest ih =>
    obtain ⟨h1, h2, h3⟩ := h c (List.mem_cons_self c rest)
    exact Safe.chr h1 h2 h3 (ih fun x hx => h x (List.mem_cons_of_mem c hx))

theorem renderRow_safe {line : List Char} (h : Safe line) (b : Bool) :
    Safe (renderRow b line) := by
  unfold renderRow
  dsimp only
  split_ifs with hs1 hs2 hs3
  · exact Safe.nil
  · exact Safe.nil
  · refine Safe_append (Safe_append (safe_token (by decide)) (flatten_safe ?_))
      (safe_token (by decide))
    intro q hq
    obtain ⟨cell, hc, rfl⟩ := List.mem_map.mp hq
    have hsafe : Safe (trimJs cell) :=
      trimJs_safe (splitOnPipe_safe line.length line (le_refl _) h cell
        ((List.mem_filter.mp hc).1))
    exact Safe_append (Safe_append (safe_token (by decide)) hsafe) (safe_token (by decide))
  · refine Safe_append (Safe_append (safe_token (by decide)) (flatten_safe ?_))
      (safe_token (by decide))
    intro q hq
    obtain ⟨cell, hc, rfl⟩ := List.mem_map.mp hq
    have hsafe : Safe (trimJs cell) :=
      trimJs_safe (splitOnPipe_safe line.length line (le_refl _) h cell
        ((List.mem_filter.mp hc).1))
    exact Safe_append (Safe_append (safe_token (by decide)) hsafe) (safe_token (by decide))

theorem enum_snd_mem {α : Type} {l : List α} {p : Nat × α} (h : p ∈ l.enum) : p.2 ∈ l := by
  have h2 : p ∈ (List.range l.length).zip l := by
    rwa [List.enum_eq_zip_range] at h
  exact (List.of_mem_zip h2).2

theorem tableHtmlOf_safe {lines : List (List Char)} (h : ∀ line ∈ lines, Safe line) :
    Safe (tableHtmlOf lines) := by
  unfold tableHtmlOf
  refine Safe_append (Safe_append (safe_token (by decide)) (flatten_safe ?_))
    (safe_token (by decide))
  intro q hq
  obtain ⟨pr, hpr, rfl⟩ := List.mem_map.mp hq
  exact renderRow_safe (h pr.2 (enum_snd_mem hpr)) (pr.1 == 0)

theorem takeWhile_append_all {p : Char → Bool} (cs l : List Char) (h : ∀ c ∈ cs, p c = true) :
    (cs ++ l).takeWhile p = cs ++ l.takeWhile p := by
  induction cs with
  | nil => rfl
  | cons c cs' ih =>
    rw [List.cons_append, List.takeWhile_cons, if_pos (h c (List.mem_cons_self c cs')),
        ih (fun x hx => h x (List.mem_cons_of_mem c hx))]
    rfl

theorem dropWhile_append_all {p : Char → Bool} (cs l : List Char) (h : ∀ c ∈ cs, p c = true) :
    (cs ++ l).dropWhile p = l.dropWhile p := by
  induction cs with
  | nil => rfl
  | cons c cs' ih =>
    rw [List.cons_append, List.dropWhile_cons, if_pos (h c (List.mem_cons_self c cs')),
        ih (fun x hx => h x (List.mem_cons_of_mem c hx))]

theorem token_amp_plain : ∀ t ∈ tokenList, t.head? = some '&' →
    ∀ c ∈ t.tail, c ≠ '<' ∧ c ≠ '>' ∧ c ≠ '&' := by decide

theorem token_amp_no_lt : ∀ t ∈ tokenList, t.head? = some '&' → ∀ c ∈ t, c ≠ '<' := by decide

theorem safe_take_drop_ne_lt {l : List Char} (h : Safe l) :
    Safe (l.takeWhile (fun c => c ≠ '<')) ∧ Safe (l.dropWhile (fun c => c ≠ '<')) := by
  induction h with
  | nil => exact ⟨Safe.nil, Safe.nil⟩
  | chr h1 h2 h3 hs ih =>
    rename_i c rest
    rw [List.takeWhile_cons, List.dropWhile_cons, if_pos (by simp [h1]), if_pos (by simp [h1])]
    exact ⟨Safe.chr h1 h2 h3 ih.1, ih.2⟩
  | tok hmem hs ih =>
    rename_i t rest
    obtain ⟨th, tt, rfl, hth⟩ := token_destruct hmem
    rcases hth with rfl | rfl
    · rw [List.cons_append, List.takeWhile_cons, List.dropWhile_cons,
          if_neg (by simp), if_neg (by simp)]
      exact ⟨Safe.nil, Safe.tok hmem hs⟩
    · have hent : ∀ c ∈ '&' :: tt, (fun c => decide (c ≠ '<')) c = true := by
        intro c hc
        simp only [decide_eq_true_eq]
        exact token_amp_no_lt _ hmem rfl c hc
      rw [takeWhile_append_all _ _ hent, dropWhile_append_all _ _ hent]
      exact ⟨Safe.tok hmem ih.1, ih.2⟩

theorem parsePipeRun_ne (c : Char) (rest : List Char) (h : c ≠ '|') :
    parsePipeRun (c :: rest) = none := by
  rw [parsePipeRun.eq_def]
  split
  · rename_i r heqm
    injection heqm with ha _
    exact absurd ha h
  · rfl

theorem parsePipeRun_safe {l seg rest : List Char} (h : Safe l)
    (heq : parsePipeRun l = some (seg, rest)) : Safe seg ∧ Safe rest := by
  rcases safe_cases h with rfl | ⟨c, r, rfl, h1, h2, h3, hr⟩ | ⟨t, r, hmem, rfl, hr⟩
  · exact absurd heq (by simp [parsePipeRun])
  · by_cases hc : c = '|'
    · subst hc
      simp only [parsePipeRun] at heq
      by_cases hrun : (r.takeWhile (fun c => c ≠ '<')).isEmpty
      · rw [if_pos (by simpa using hrun)] at heq
        cases heq
      · rw [if_neg (by simpa using hrun)] at heq
        simp only [Option.some.injEq, Prod.mk.injEq] at heq
        obtain ⟨hseg, hrest⟩ := heq
        subst hseg
        subst hrest
        obtain ⟨htk, hdr⟩ := safe_take_drop_ne_lt hr
        exact ⟨Safe.chr (by decide) (by decide) (by decide) htk, hdr⟩
    · exact absurd heq (by simp [parsePipeRun_ne c r hc])
  · obtain ⟨th, tt, rfl, hth⟩ := token_destruct hmem
    rw [List.cons_append] at heq
    rcases hth with rfl | rfl
    · rw [parsePipeRun_ne '<' (tt ++ r) (by decide)] at heq
      cases heq
    · rw [parsePipeRun_ne '&' (tt ++ r) (by decide)] at heq
      cases heq

theorem pipeTail_safe : ∀ fuel l t, Safe l → pipeTail fuel l = some t →
    Safe t.matched ∧ (∀ g, t.g2last = some g → Safe g) ∧ Safe t.g3 ∧ Safe t.g4 ∧
      Safe t.after := by
  intro fuel
  induction fuel with
  | zero =>
    intro l t hs heq
    cases heq
  | succ fuel ih =>
    intro l t hs heq
    cases hpp : parsePipeRun l with
    | none => simp [pipeTail, hpp] at heq
    | some pr =>
      obtain ⟨seg, rest⟩ := pr
      obtain ⟨hseg, hrest⟩ := parsePipeRun_safe hs hpp
      simp only [pipeTail, hpp] at heq
      split at heq
      · rename_i rest2
        have hrest2 : Safe rest2 := Safe_inv_br hrest
        cases hpt : pipeTail fuel rest2 with
        | some t' =>
          rw [hpt] at heq
          obtain ⟨hm, hg2, hg3, hg4, haf⟩ := ih rest2 t' hrest2 hpt
          have ht := Option.some.inj heq
          subst ht
          refine ⟨?_, ?_, hg3, hg4, haf⟩
          · exact Safe_append hseg
              (Safe.tok (show ['<', 'b', 'r', '>'] ∈ tokenList by decide) hm)
          · intro g hg
            have hgd := Option.some.inj hg
            subst hgd
            cases hgl : t'.g2last with
            | some g' =>
              simp only [Option.getD_some]
              exact hg2 g' hgl
            | none =>
              simp only [Option.getD_none]
              exact Safe_append hseg (safe_token (by decide))
        | none =>
          rw [hpt] at heq
          have ht := Option.some.inj heq
          subst ht
          exact ⟨hseg, fun g hg => absurd hg (by simp), hseg, Safe.nil, hrest⟩
      · rename_i rest2
        have hrest2 : Safe rest2 := Safe_inv_pclose hrest
        have ht := Option.some.inj heq
        subst ht
        exact ⟨Safe_append hseg (safe_token (by decide)), fun g hg => absurd hg (by simp),
          hseg, show Safe ['<', '/', 'p', '>'] from safe_token (by decide), hrest2⟩
      · have ht := Option.some.inj heq
        subst ht
        exact ⟨hseg, fun g hg => absurd hg (by simp), hseg, Safe.nil, hrest⟩

theorem pipesMatch_safe {l : List Char} {t : TableMatch} (h : Safe l)
    (heq : pipesMatch l = some t) :
    Safe t.matched ∧ Safe t.g1 ∧ Safe t.g2 ∧ Safe t.g3 ∧ Safe t.g4 ∧ Safe t.after := by
  cases hpp : parsePipeRun l with
  | none => simp [pipesMatch, hpp] at heq
  | some pr =>
    obtain ⟨seg, rest⟩ := pr
    obtain ⟨hseg, hrest⟩ := parsePipeRun_safe h hpp
    simp only [pipesMatch, hpp] at heq
    split at heq
    · rename_i rest2
      have hrest2 : Safe rest2 := Safe_inv_br hrest
      cases hpt : pipeTail (rest2.length + 1) rest2 with
      | some t' =>
        rw [hpt] at heq
        obtain ⟨hm, hg2, hg3, hg4, haf⟩ := pipeTail_safe (rest2.length + 1) rest2 t' hrest2 hpt
        have ht := Option.some.inj heq
        subst ht
        refine ⟨?_, Safe.nil, ?_, hg3, hg4, haf⟩
        · exact Safe_append hseg
            (Safe.tok (show ['<', 'b', 'r', '>'] ∈ tokenList by decide) hm)
        · cases hgl : t'.g2last with
          | some g' =>
            simp only [Option.getD_some]
            exact hg2 g' hgl
          | none =>
            simp only [Option.getD_none]
            exact Safe_append hseg (safe_token (by decide))
      | none =>
        rw [hpt] at heq
        cases heq
    · cases heq

theorem tableMatchAt_safe {l : List Char} {t : TableMatch} (h : Safe l)
    (heq : tableMatchAt l = some t) :
    Safe t.matched ∧ Safe t.g1 ∧ Safe t.g2 ∧ Safe t.g3 ∧ Safe t.g4 ∧ Safe t.after := by
  rw [tableMatchAt.eq_def] at heq
  split at heq
  · rename_i rest
    have hrest : Safe rest := Safe_inv_p h
    cases hpm : pipesMatch rest with
    | some t' =>
      rw [hpm] at heq
      obtain ⟨hm, hg1, hg2, hg3, hg4, haf⟩ := pipesMatch_safe hrest hpm
      have ht := Option.some.inj heq
      subst ht
      exact ⟨Safe.tok (show ['<', 'p', '>'] ∈ tokenList by decide) hm,
        show Safe ['<', 'p', '>'] from safe_token (by decide), hg2, hg3, hg4, haf⟩
    | none =>
      rw [hpm] at heq
      cases heq
  · exact pipesMatch_safe h heq

theorem applyRepl_cons_ne (m pre post g1 g2 g3 g4 : List Char) (c : Char) (rest : List Char)
    (h : c ≠ '$') :
    applyRepl m pre post g1 g2 g3 g4 (c :: rest) =
      c :: applyRepl m pre post g1 g2 g3 g4 rest := by
  cases rest with
  | nil => simp [applyRepl]
  | cons c2 rest2 =>
    rw [applyRepl.eq_def]
    split <;> simp_all

theorem applyRepl_skip (m pre post g1 g2 g3 g4 cs rest : List Char)
    (h : ∀ c ∈ cs, c ≠ '$') :
    applyRepl m pre post g1 g2 g3 g4 (cs ++ rest) =
      cs ++ applyRepl m pre post g1 g2 g3 g4 rest := by
  induction cs with
  | nil => rfl
  | cons c cs' ih =>
    rw [List.cons_append,
        applyRepl_cons_ne m pre post g1 g2 g3 g4 c _ (h c (List.mem_cons_self c cs')),
        ih (fun x hx => h x (List.mem_cons_of_mem c hx))]
    rfl

theorem applyRepl_dollar_other (m pre post g1 g2 g3 g4 : List Char) (c2 : Char)
    (rest2 : List Char) (hv : c2 ≠ '$') (ha : c2 ≠ '&') (n1 : c2 ≠ '1') (n2 : c2 ≠ '2')
    (n3 : c2 ≠ '3') (n4 : c2 ≠ '4') (hq : c2 ≠ Char.ofNat 96) (hq2 : c2 ≠ Char.ofNat 39) :
    applyRepl m pre post g1 g2 g3 g4 ('$' :: c2 :: rest2) =
      '$' :: applyRepl m pre post g1 g2 g3 g4 (c2 :: rest2) := by
  rw [applyRepl.eq_def]
  split <;>
    first
    | (rename_i hlast heqm
       injection heqm with ha hb
       exact (hlast c2 rest2 ha.symm hb.symm).elim)
    | simp_all

theorem token_tail_no_dollar : ∀ t ∈ tokenList, ∀ c ∈ t.tail, c ≠ '$' := by decide

theorem applyRepl_safe (m pre post g1 g2 g3 g4 : List Char) (hm : Safe m) (hpre : Safe pre)
    (hpost : Safe post) (hg1 : Safe g1) (hg2 : Safe g2) (hg3 : Safe g3) (hg4 : Safe g4) :
    ∀ n repl, repl.length ≤ n → Safe repl →
      Safe (applyRepl m pre post g1 g2 g3 g4 repl) := by
  intro n
  induction n using Nat.strong_induction_on with
  | _ n ih =>
    intro repl hl hs
    rcases safe_cases hs with rfl | ⟨c, rest, rfl, k1, k2, k3, hrest⟩ | ⟨t, rest, hmem, rfl, hrest⟩
    · exact Safe.nil
    · have hlr : rest.length < n := by
        simp only [List.length_cons] at hl
        omega
      by_cases hc : c = '$'
      · subst hc
        rcases safe_cases hrest with rfl | ⟨c2, rest2, rfl, m1, m2, m3, hrest2⟩ |
            ⟨t2, rest2, hmem2, rfl, hrest2⟩
        · rw [show applyRepl m pre post g1 g2 g3 g4 ['$'] = ['$'] from rfl]
          exact Safe.chr (by decide) (by decide) (by decide) Safe.nil
        · have hlr2 : rest2.length < n := by
            simp only [List.length_cons] at hl
            omega
          by_cases hA : c2 = '$'
          · subst hA
            rw [show applyRepl m pre post g1 g2 g3 g4 ('$' :: '$' :: rest2) =
                  '$' :: applyRepl m pre post g1 g2 g3 g4 rest2 from rfl]
            exact Safe.chr (by decide) (by decide) (by decide)
              (ih rest2.length hlr2 rest2 (le_refl _) hrest2)
          · by_cases hB : c2 = '1'
            · subst hB
              rw [show applyRepl m pre post g1 g2 g3 g4 ('$' :: '1' :: rest2) =
                    g1 ++ applyRepl m pre post g1 g2 g3 g4 rest2 from rfl]
              exact Safe_append hg1 (ih rest2.length hlr2 rest2 (le_refl _) hrest2)
            · by_cases hC : c2 = '2'
              · subst hC
                rw [show applyRepl m pre post g1 g2 g3 g4 ('$' :: '2' :: rest2) =
                      g2 ++ applyRepl m pre post g1 g2 g3 g4 rest2 from rfl]
                exact Safe_append hg2 (ih rest2.length hlr2 rest2 (le_refl _) hrest2)
              · by_cases hD : c2 = '3'
                · subst hD
                  rw [show applyRepl m pre post g1 g2 g3 g4 ('$' :: '3' :: rest2) =
                        g3 ++ applyRepl m pre post g1 g2 g3 g4 rest2 from rfl]
                  exact Safe_append hg3 (ih rest2.length hlr2 rest2 (le_refl _) hrest2)
                · by_cases hE : c2 = '4'
                  · subst hE
                    rw [show applyRepl m pre post g1 g2 g3 g4 ('$' :: '4' :: rest2) =
                          g4 ++ applyRepl m pre post g1 g2 g3 g4 rest2 from rfl]
                    exact Safe_append hg4 (ih rest2.length hlr2 rest2 (le_refl _) hrest2)
                  · by_cases hF : c2 = Char.ofNat 96
                    · subst hF
                      rw [show applyRepl m pre post g1 g2 g3 g4
                            ('$' :: Char.ofNat 96 :: rest2) =
                            pre ++ applyRepl m pre post g1 g2 g3 g4 rest2 from rfl]
                      exact Safe_append hpre (ih rest2.length hlr2 rest2 (le_refl _) hrest2)
                    · by_cases hG : c2 = Char.ofNat 39
                      · subst hG
                        rw [show applyRepl m pre post g1 g2 g3 g4
                              ('$' :: Char.ofNat 39 :: rest2) =
                              post ++ applyRepl m pre post g1 g2 g3 g4 rest2 from rfl]
                        exact Safe_append hpost
                          (ih rest2.length hlr2 rest2 (le_refl _) hrest2)
                      · rw [applyRepl_dollar_other m pre post g1 g2 g3 g4 c2 rest2
                            hA m3 hB hC hD hE hF hG]
                        exact Safe.chr (by decide) (by decide) (by decide)
                          (ih (c2 :: rest2).length hlr _ (le_refl _) hrest)
        · obtain ⟨th, tt2, rfl, hth⟩ := token_destruct hmem2
          have hlr2 : rest2.length < n := by
            simp only [List.length_cons, List.length_append] at hl
            omega
          rcases hth with rfl | rfl
          · rw [List.cons_append,
                applyRepl_dollar_other m pre post g1 g2 g3 g4 '<' (tt2 ++ rest2)
                  (by decide) (by decide) (by decide) (by decide) (by decide) (by decide)
                  (by decide) (by decide),
                show ('<' :: (tt2 ++ rest2)) = ('<' :: tt2) ++ rest2 from rfl,
                applyRepl_skip m pre post g1 g2 g3 g4 ('<' :: tt2) rest2 ?hnd]
            case hnd =>
              intro c hc
              rcases List.mem_cons.mp hc with rfl | h2
              · decide
              · exact token_tail_no_dollar _ hmem2 c h2
            exact Safe.chr (by decide) (by decide) (by decide)
              (Safe_append (safe_token hmem2)
                (ih rest2.length hlr2 rest2 (le_refl _) hrest2))
          · rw [List.cons_append,
                show applyRepl m pre post g1 g2 g3 g4 ('$' :: '&' :: (tt2 ++ rest2)) =
                  m ++ applyRepl m pre post g1 g2 g3 g4 (tt2 ++ rest2) from rfl,
                applyRepl_skip m pre post g1 g2 g3 g4 tt2 rest2
                  (fun c hc => token_tail_no_dollar _ hmem2 c hc)]
            refine Safe_append hm (Safe_append (safe_of_all_chr ?_)
              (ih rest2.length hlr2 rest2 (le_refl _) hrest2))
            intro c hc
            exact token_amp_plain _ hmem2 rfl c hc
      · rw [applyRepl_cons_ne m pre post g1 g2 g3 g4 c rest hc]
        exact Safe.chr k1 k2 k3 (ih rest.length hlr rest (le_refl _) hrest)
    · have htlen : t.length ≠ 0 :=
        fun h0 => token_ne_nil t hmem (List.eq_nil_of_length_eq_zero h0)
      have hlr : rest.length < n := by
        rw [List.length_append] at hl
        omega
      rw [applyRepl_skip m pre post g1 g2 g3 g4 t rest
        (fun c hc => (token_chars_plain t hmem c hc).2.2.2.2.1)]
      exact Safe.tok hmem (ih rest.length hlr rest (le_refl _) hrest)

theorem tableMatchAt_none_of (c : Char) (rest : List Char) (h1 : c ≠ '|') (h2 : c ≠ '<') :
    tableMatchAt (c :: rest) = none := by
  rw [tableMatchAt.eq_def]
  split
  · rename_i r heqm
    injection heqm with ha _
    exact absurd ha h2
  · simp [pipesMatch, parsePipeRun_ne c rest h1]

theorem tableReplaceRun_skip_inner (repl : List Char) :
    ∀ cs pre rest, (∀ c ∈ cs, c ≠ '|' ∧ c ≠ '<') →
      tableReplaceRun repl pre (cs ++ rest) = cs ++ tableReplaceRun repl (pre ++ cs) rest := by
  intro cs
  induction cs with
  | nil =>
    intro pre rest h
    simp
  | cons c cs' ih =>
    intro pre rest h
    obtain ⟨hc1, hc2⟩ := h c (List.mem_cons_self c cs')
    rw [List.cons_append, tableReplaceRun_nomatch (tableMatchAt_none_of c _ hc1 hc2),
        ih (pre ++ [c]) rest (fun x hx => h x (List.mem_cons_of_mem c hx))]
    simp [List.append_assoc]

theorem token_amp_no_pipe_lt : ∀ t ∈ tokenList, t.head? = some '&' →
    ∀ c ∈ t, c ≠ '|' ∧ c ≠ '<' := by decide

theorem token_tail_no_pipe_lt : ∀ t ∈ tokenList, ∀ c ∈ t.tail, c ≠ '|' ∧ c ≠ '<' := by decide

theorem tableReplaceRun_safe (repl : List Char) (hrepl : Safe repl) :
    ∀ n cur pre, cur.length ≤ n → Safe cur → Safe pre →
      Safe (tableReplaceRun repl pre cur) := by
  intro n
  induction n using Nat.strong_induction_on with
  | _ n ih =>
    intro cur pre hl hs hpre
    rcases safe_cases hs with rfl | ⟨c, rest, rfl, h1, h2, h3, hrest⟩ | ⟨t, rest, hmem, rfl, hrest⟩
    · exact Safe.nil
    · cases hm : tableMatchAt (c :: rest) with
      | some tm =>
        rw [tableReplaceRun_match hm]
        obtain ⟨hmt, hg1, hg2, hg3, hg4, haf⟩ := tableMatchAt_safe hs hm
        have hla : tm.after.length < n := by
          have := tableMatchAt_length hm
          simp only [List.length_cons] at this hl
          omega
        exact Safe_append
          (applyRepl_safe tm.matched pre tm.after tm.g1 tm.g2 tm.g3 tm.g4 hmt hpre haf
            hg1 hg2 hg3 hg4 repl.length repl (le_refl _) hrepl)
          (ih tm.after.length hla tm.after (pre ++ tm.matched) (le_refl _) haf
            (Safe_append hpre hmt))
      | none =>
        rw [tableReplaceRun_nomatch hm]
        have hlr : rest.length < n := by
          simp only [List.length_cons] at hl
          omega
        exact Safe.chr h1 h2 h3 (ih rest.length hlr rest (pre ++ [c]) (le_refl _) hrest
          (Safe_append hpre (Safe.chr h1 h2 h3 Safe.nil)))
    · obtain ⟨th, tt, rfl, hth⟩ := token_destruct hmem
      rw [List.cons_append]
      cases hm : tableMatchAt (th :: (tt ++ rest)) with
      | some tm =>
        rw [tableReplaceRun_match hm]
        have hs2 : Safe (th :: (tt ++ rest)) := by
          rw [show th :: (tt ++ rest) = (th :: tt) ++ rest from rfl]
          exact hs
        obtain ⟨hmt, hg1, hg2, hg3, hg4, haf⟩ := tableMatchAt_safe hs2 hm
        have hla : tm.after.length < n := by
          have := tableMatchAt_length hm
          simp only [List.length_cons, List.length_append] at this hl
          omega
        exact Safe_append
          (applyRepl_safe tm.matched pre tm.after tm.g1 tm.g2 tm.g3 tm.g4 hmt hpre haf
            hg1 hg2 hg3 hg4 repl.length repl (le_refl _) hrepl)
          (ih tm.after.length hla tm.after (pre ++ tm.matched) (le_refl _) haf
            (Safe_append hpre hmt))
      | none =>
        have hlr : rest.length < n := by
          simp only [List.length_cons, List.length_append] at hl
          omega
        have hihr : Safe (tableReplaceRun repl (pre ++ (th :: tt)) rest) :=
          ih rest.length hlr rest (pre ++ (th :: tt)) (le_refl _) hrest
            (Safe_append hpre (safe_token hmem))
        rcases hth with rfl | rfl
        · rw [tableReplaceRun_nomatch hm,
              tableReplaceRun_skip_inner repl tt (pre ++ ['<']) rest
                (fun c hc => token_tail_no_pipe_lt _ hmem c hc)]
          rw [show (pre ++ ['<']) ++ tt = pre ++ ('<' :: tt) by simp]
          exact Safe.tok hmem hihr
        · rw [show ('&' :: (tt ++ rest)) = ('&' :: tt) ++ rest from rfl,
              tableReplaceRun_skip_inner repl ('&' :: tt) pre rest
                (fun c hc => token_amp_no_pipe_lt _ hmem rfl c hc)]
          exact Safe.tok hmem hihr

theorem convertToTable_safe {text : List Char} (h : Safe text) : Safe (convertToTable text) := by
  rw [convertToTable_eq]
  split_ifs with hc
  · exact h
  · refine tableReplaceRun_safe _ ?_ text.length text [] (le_refl _) h Safe.nil
    apply tableHtmlOf_safe
    intro line hline
    exact splitOnBr_safe text.length text (le_refl _) h line (List.mem_filter.mp hline).1

theorem formatCore_safe (content : List Char) : Safe (formatCore content) := by
  have h5 : Safe (boldReplace (ulWrap (bulletReplace (paragraphStage
      (escapeHtmlL content))))) :=
    boldReplace_safe _ _ (le_refl _)
      (ulWrap_safe _ _ (le_refl _)
        (bulletReplace_safe _ _ (le_refl _)
          (paragraphStage_safe (escapeHtmlL_safe content))))
  unfold formatCore
  dsimp only
  split_ifs with hc
  · exact convertToTable_safe h5
  · exact h5

/-- C6: HTML-escape safety.  `Safe l` holds exactly when every `<`, `>` or
`&` of `l` lies inside one of the formatter's own markup fragments — the
seventeen tags of `tagList` emitted by the block/inline rules and the four
entities of `entList` emitted by `escapeHtml` — while every other character
stands alone.  Every `formatMessage` output is `Safe`: the escape stage
turns each raw `<`, `>`, `&` into an entity, and every later stage
(paragraphs, bullet items, list wrapping, bold spans, table conversion)
preserves safety, so no unescaped special character of the raw input
survives to the output and the only real markup present is the markup the
formatter itself introduces. -/
theorem formatMessage_escapes_html (s : String) : Safe (formatMessage s).data :=
  formatCore_safe s.data

end Mindalizer
